import Mathlib

/-!
# textstats: a verification development

A shallow embedding of `pkg/textstats/reader.go` and `pkg/constants/syllables.go`.

Modelling conventions.

* A Go `string` that the program only ever builds from whole runes is a `List Char`
  (its rune sequence).  `len(word) > 0` is `word ≠ []`.
* Go `int` counters are `Int`.  Every counter is advanced by one per rune or per word, so
  a wrap-around needs a stream of more than `2^63` runes; the counters are not reduced
  modulo `2^64`.
* A Go `map[K]V` is an association list with at most one entry per key (`GoMap`).
  `m[k] = v` replaces the entry of `k` or adds one.
* What the program imports from outside the repository, or from files of the repository
  that are not part of the sources at hand, is a field of `Env`: the Unicode tables of
  package `unicode`, the estimator `syllables.In`, the tables
  `constants.CMUDictSyllableCountPerWord` and `constants.DaleChallWordList`.
* Package `regexp` is modelled by a backtracking matcher over a small pattern syntax that
  covers every pattern of the program (`Re`), with Go's leftmost-first preference.
* The operations of `float64` that a method uses are the fields of a `FloatOps`, so that
  what is proved of the method holds for every implementation of them.  `binary64` is
  Go's: the conversion and the quotient of IEEE 754 with their rounding to nearest, ties
  to even (`round64`).  `exactFloat` is an idealisation without rounding, which Go's
  `float64` is not; it only serves as an instance of the interface.
-/

set_option linter.dupNamespace false

namespace Textstats

/-! ## Go maps -/

/-- A Go map as an association list. -/
abbrev GoMap (κ ν : Type) := List (κ × ν)

namespace GoMap

variable {κ ν : Type} [DecidableEq κ]

/-- The comma-ok lookup `v, ok := m[k]`. -/
def get? : GoMap κ ν → κ → Option ν
  | [], _ => none
  | (k', v) :: t, k => if k' = k then some v else get? t k

/-- The assignment `m[k] = v`. -/
def set : GoMap κ ν → κ → ν → GoMap κ ν
  | [], k, v => [(k, v)]
  | (k', v') :: t, k, v => if k' = k then (k, v) :: t else (k', v') :: set t k v

/-- The keys of the map. -/
def keys (m : GoMap κ ν) : List κ := m.map Prod.fst

/-- The values of the map. -/
def values (m : GoMap κ ν) : List ν := m.map Prod.snd

end GoMap

/-! ## Package `regexp` -/

/-- A pattern item that consumes exactly one rune. -/
inductive Atom where
  /-- A literal rune. -/
  | lit (c : Char)
  /-- The dot: any rune but a newline. -/
  | dot
  /-- A character class `[...]` or `[^...]` (when `neg`), as a list of inclusive ranges. -/
  | cls (neg : Bool) (ranges : List (Char × Char))
  deriving DecidableEq, Repr

/-- Whether the atom accepts the rune. -/
def Atom.test : Atom → Char → Bool
  | .lit c, x => decide (x = c)
  | .dot, x => decide (x ≠ '\n')
  | .cls neg rs, x => (rs.any fun r => decide (r.1 ≤ x) && decide (x ≤ r.2)) != neg

/-- Patterns.  Repetition is over one-rune items only, which is all the program uses. -/
inductive Re where
  /-- The empty pattern. -/
  | eps
  /-- One rune. -/
  | atom (a : Atom)
  /-- The anchor `^` (beginning of text; no pattern sets the multi-line flag). -/
  | bol
  /-- The anchor `$` (end of text). -/
  | eol
  /-- The ASCII word boundary `\b`. -/
  | wordB
  /-- Concatenation. -/
  | seq (a b : Re)
  /-- Alternation `a|b`, preferring `a`. -/
  | alt (a b : Re)
  /-- Repetition `x{min,max}` of a one-rune item; greedy, or lazy (`x+?`). -/
  | rep (a : Atom) (min : Nat) (max : Option Nat) (greedy : Bool)
  /-- A capturing group. -/
  | group (r : Re)
  deriving Repr

/-- A position in the text being matched. -/
structure Cursor where
  /-- The rune before the position, `none` at the beginning of the text. -/
  prev : Option Char
  /-- The text from the position on. -/
  rest : List Char
  /-- The text of the groups closed so far, in closing order.  No pattern of the program
  nests groups or has one under an alternation, so this is the submatch list. -/
  caps : List (List Char)
  deriving DecidableEq, Repr

/-- The ASCII word runes of `\b`: `[0-9A-Za-z_]`. -/
def isWordRune (c : Char) : Bool :=
  (decide ('0' ≤ c) && decide (c ≤ '9')) || (decide ('A' ≤ c) && decide (c ≤ 'Z')) ||
    (decide ('a' ≤ c) && decide (c ≤ 'z')) || decide (c = '_')

/-- Whether the position is preceded, resp. followed, by a word rune. -/
def wordBefore (c : Cursor) : Bool :=
  match c.prev with
  | some x => isWordRune x
  | none => false

/-- Whether the position is followed by a word rune. -/
def wordAfter (c : Cursor) : Bool :=
  match c.rest with
  | x :: _ => isWordRune x
  | [] => false

/-- All ways to repeat the atom from a position, in order of preference. -/
def repRun (a : Atom) (greedy : Bool) :
    Nat → Option Nat → Option Char → List Char → List (List Char) → List Cursor
  | min, _, prev, [], caps => if min = 0 then [⟨prev, [], caps⟩] else []
  | min, max, prev, x :: xs, caps =>
    let here : List Cursor := if min = 0 then [⟨prev, x :: xs, caps⟩] else []
    let more : List Cursor :=
      if max ≠ some 0 ∧ a.test x = true then
        repRun a greedy (min - 1) (max.map fun m => m - 1) (some x) xs caps
      else []
    if greedy then more ++ here else here ++ more

/-- All matches of the pattern that start at the position, in order of preference: the
positions where a match ends. -/
def Re.run : Re → Cursor → List Cursor
  | .eps, c => [c]
  | .atom a, c =>
    match c.rest with
    | x :: xs => if a.test x then [⟨some x, xs, c.caps⟩] else []
    | [] => []
  | .bol, c => if c.prev = none then [c] else []
  | .eol, c => if c.rest = [] then [c] else []
  | .wordB, c => if wordBefore c != wordAfter c then [c] else []
  | .seq a b, c => (a.run c).flatMap b.run
  | .alt a b, c => a.run c ++ b.run c
  | .rep a min max greedy, c => repRun a greedy min max c.prev c.rest c.caps
  | .group r, c =>
    (r.run c).map fun c' =>
      ⟨c'.prev, c'.rest, c'.caps ++ [c.rest.take (c.rest.length - c'.rest.length)]⟩

/-- A match found by a search. -/
structure Match where
  /-- The text skipped before the match. -/
  before : List Char
  /-- The matched text. -/
  text : List Char
  /-- The position after the match. -/
  stop : Cursor
  deriving DecidableEq, Repr

/-- The leftmost match at or after a position, the preferred one among those starting
there (Go's leftmost-first rule). -/
def Re.findFrom (r : Re) : Option Char → List Char → Option Match
  | prev, [] =>
    match r.run ⟨prev, [], []⟩ with
    | c :: _ => some ⟨[], [], c⟩
    | [] => none
  | prev, x :: xs =>
    match r.run ⟨prev, x :: xs, []⟩ with
    | c :: _ => some ⟨[], (x :: xs).take ((x :: xs).length - c.rest.length), c⟩
    | [] =>
      match r.findFrom (some x) xs with
      | some m => some ⟨x :: m.before, m.text, m.stop⟩
      | none => none

/-- The method `MatchString`. -/
def Re.MatchString (r : Re) (s : List Char) : Bool := (r.findFrom none s).isSome

/-- The method `FindStringSubmatch`: `none` for Go's `nil`, else the whole match followed
by the text of each group. -/
def Re.FindStringSubmatch (r : Re) (s : List Char) : Option (List (List Char)) :=
  match r.findFrom none s with
  | some m => some (m.text :: m.stop.caps)
  | none => none

/-- The loop of `ReplaceAllString(s, "")`: the text without its successive matches.  An
empty match removes nothing and the search moves on by one rune.  Every turn moves the
search on, so the length of the text, plus one, is fuel enough. -/
def Re.replaceLoop (r : Re) : Nat → Option Char → List Char → List Char
  | 0, _, s => s
  | fuel + 1, prev, s =>
    match r.findFrom prev s with
    | none => s
    | some m =>
      if m.text ≠ [] then m.before ++ r.replaceLoop fuel m.stop.prev m.stop.rest
      else
        match m.stop.rest with
        | [] => m.before
        | x :: xs => m.before ++ x :: r.replaceLoop fuel (some x) xs

/-- The call `ReplaceAllString(s, "")`. -/
def Re.ReplaceAllEmpty (r : Re) (s : List Char) : List Char :=
  r.replaceLoop (s.length + 1) none s

/-- The matches of `FindAllStringIndex(s, -1)` as pairs of rune offsets: successive
leftmost matches, an empty match right after the previous match being dropped.  A turn
either moves the search on or is followed by one that does, so twice the length of the
text, plus two, is fuel enough. -/
def Re.allMatches (r : Re) :
    Nat → Nat → Option Nat → Option Char → List Char → List (Nat × Nat)
  | 0, _, _, _, _ => []
  | fuel + 1, pos, prevMatchEnd, prev, s =>
    match r.findFrom prev s with
    | none => []
    | some m =>
      let a0 := pos + m.before.length
      let a1 := a0 + m.text.length
      if m.text = [] ∧ m.before = [] then
        let tail :=
          match s with
          | [] => []
          | x :: xs => r.allMatches fuel (pos + 1) (some a1) (some x) xs
        if some a0 = prevMatchEnd then tail else (a0, a1) :: tail
      else
        (a0, a1) :: r.allMatches fuel a1 (some a1) m.stop.prev m.stop.rest

/-- The loop of `Split(s, -1)` over the matches: the pieces, the start of the last match
seen, and the end of the last match seen. -/
def splitLoop (s : List Char) : List (Nat × Nat) → Nat → Nat → List (List Char) →
    List (List Char) × Nat × Nat
  | [], beg, stop, acc => (acc, beg, stop)
  | (m0, m1) :: ms, beg, _, acc =>
    splitLoop s ms m1 m0 (if m1 ≠ 0 then acc ++ [(s.drop beg).take (m0 - beg)] else acc)

/-- The call `Split(s, -1)` for a non-empty pattern. -/
def Re.Split (r : Re) (s : List Char) : List (List Char) :=
  if s = [] then [[]]
  else
    let (acc, beg, stop) :=
      splitLoop s (r.allMatches (2 * (s.length + 1)) 0 none none s) 0 0 []
    if stop ≠ s.length then acc ++ [s.drop beg] else acc

/-! ## Pattern syntax, as written in the source -/

/-- The concatenation of a list of patterns. -/
def cat : List Re → Re
  | [] => .eps
  | [r] => r
  | r :: rs => .seq r (cat rs)

/-- A literal string. -/
def str (s : String) : Re := cat (s.toList.map fun c => .atom (.lit c))

/-- The class `[...]` of the listed runes. -/
def oneOf (s : String) : Atom := .cls false (s.toList.map fun c => (c, c))

/-- The class `[^...]` of the runes not listed. -/
def noneOf (s : String) : Atom := .cls true (s.toList.map fun c => (c, c))

/-- The item `x?`. -/
def opt (a : Atom) : Re := .rep a 0 (some 1) true

/-! ## Package `constants` -/

/-- The table `ChooseDefaultAlgoOverAlternative`. -/
def ChooseDefaultAlgoOverAlternative : GoMap (List Char) Bool :=
  [ ("2-3".toList, true), ("3-4".toList, true), ("4-5".toList, true), ("5-4".toList, true),
    ("6-5".toList, true), ("6-7".toList, true), ("7-6".toList, true) ]

/-- The pattern `[^aeiouy]+`. -/
def ConsonantsRegexp : Re := .rep (noneOf "aeiouy") 1 none true

/-- The table `ProblemWords`. -/
def ProblemWords : GoMap (List Char) Int :=
  [ ("simile".toList, 3), ("forever".toList, 3), ("shoreline".toList, 2),
    ("forest".toList, 2) ]

/-- The list `SubSyllables`. -/
def SubSyllables : List Re :=
  [ str "cial",
    str "tia",
    str "cius",
    str "cious",
    str "giu",
    str "ion",
    str "ise",
    str "iou",
    cat [str "sia", .eol],
    cat [.rep (noneOf "aeiouyt") 2 none true, str "ed", .eol],
    cat [.atom .dot, str "ely", .eol],
    cat [.atom (oneOf "cg"), opt (.lit 'h'), str "e", opt (oneOf "rsd"), .eol],
    cat [str "rve", opt (.lit 'd'), .eol],
    cat [.atom (oneOf "aeiouy"), .atom (oneOf "dt"), str "e", opt (.lit 's'), .eol],
    cat [.atom (oneOf "aeiouy"), .atom (noneOf "aeiouydt"), str "e", opt (oneOf "rsd"), .eol],
    cat [.bol, .atom (oneOf "dr"), str "e", .atom (oneOf "aeiou"),
      .rep (noneOf "aeiou") 1 none true, .eol],
    cat [.atom (oneOf "aeiouy"), str "rse", .eol] ]

/-- The list `AddSyllables`. -/
def AddSyllables : List Re :=
  [ str "ia",
    str "riet",
    str "dien",
    str "iu",
    str "io",
    str "ii",
    cat [.atom (oneOf "aeiouym"), str "bl", .eol],
    .rep (oneOf "aeiou") 3 (some 3) true,
    cat [.bol, str "mc"],
    cat [str "ism", .eol],
    cat [.rep (noneOf "aeiouy") 2 (some 2) true, str "l", .eol],
    cat [.atom (noneOf "l"), str "lien"],
    cat [.bol, str "coa", .atom (oneOf "dglx"), .atom .dot],
    cat [.atom (noneOf "gq"), str "ua", .atom (noneOf "auieo")],
    cat [str "dnt", .eol],
    cat [str "uity", .eol],
    cat [str "ie", .group (.alt (str "r") (str "st")), .eol],
    cat [str "yee", .eol] ]

/-- The list `PrefixSuffixes`. -/
def PrefixSuffixes : List Re :=
  [ cat [.bol, str "un"],
    cat [.bol, str "fore"],
    cat [str "ly", .eol],
    cat [str "less", .eol],
    cat [str "ful", .eol],
    cat [str "er", opt (.lit 's'), .eol],
    cat [str "ing", opt (.lit 's'), .eol] ]

/-! ## Package `textstats` -/

/-- The pattern `([a-zA-Z]+?)(s\b|\b)`. -/
def pluralRegexp : Re :=
  .seq (.group (.rep (.cls false [('a', 'z'), ('A', 'Z')]) 1 none false))
    (.group (.alt (.seq (str "s") .wordB) .wordB))

/-- What the program takes from outside the sources at hand. -/
structure Env where
  /-- The predicate `unicode.IsLetter`. -/
  isLetter : Char → Bool
  /-- The predicate `unicode.IsSpace`. -/
  isSpace : Char → Bool
  /-- The predicate `unicode.IsPunct`. -/
  isPunct : Char → Bool
  /-- The rune map `unicode.ToLower`, which `strings.ToLower` applies to every rune. -/
  toLower : Char → Char
  /-- The estimator `syllables.In` of `github.com/mtso/syllables`. -/
  syllablesIn : List Char → Int
  /-- The table `constants.CMUDictSyllableCountPerWord`, by its comma-ok lookup. -/
  CMUDictSyllableCountPerWord : List Char → Option Int
  /-- The table `constants.DaleChallWordList`, by the `ok` of its comma-ok lookup. -/
  DaleChallWordList : List Char → Bool

/-- The struct `SyllableAnalysis`. -/
structure SyllableAnalysis where
  CMUSyllableCount : Option Int
  DefaultAlgoSyllableCount : Int
  AlternativeAlgoSyllableCount : Int
  MostLikelySyllableCount : Int
  deriving DecidableEq, Repr

/-- The struct `Word`. -/
structure Word where
  Word : List Char
  Occurrences : Int
  Syllables : SyllableAnalysis
  deriving DecidableEq, Repr

/-- The struct `Results`. -/
structure Results where
  CountTotalWords : Int
  CountUniqueWords : Int
  Sentences : Int
  Letters : Int
  Punctuation : Int
  Spaces : Int
  Syllables : Int
  DifficultWords : Int
  WordCountPerSyllableCount : GoMap Int Int
  UniqueWordCountPerSyllableCount : GoMap Int Int
  WordList : GoMap (List Char) Word
  deriving DecidableEq, Repr

/-- The loop of `SyllableCount` over `PrefixSuffixes`: the stripped word and
`prefixSuffixCount`. -/
def stripPrefixSuffixes : List Re → List Char → Int → List Char × Int
  | [], word, prefixSuffixCount => (word, prefixSuffixCount)
  | regex :: rest, word, prefixSuffixCount =>
    if regex.MatchString word then
      stripPrefixSuffixes rest (regex.ReplaceAllEmpty word) (prefixSuffixCount + 1)
    else stripPrefixSuffixes rest word prefixSuffixCount

/-- The loop of `SyllableCount` over the pieces of the split. -/
def countWordParts : List (List Char) → Int → Int
  | [], wordPartCount => wordPartCount
  | wordPart :: rest, wordPartCount =>
    if wordPart ≠ [] then countWordParts rest (wordPartCount + 1)
    else countWordParts rest wordPartCount

/-- The loop of `SyllableCount` over `SubSyllables`. -/
def subSyllables (word : List Char) : List Re → Int → Int
  | [], sCount => sCount
  | regex :: rest, sCount =>
    if regex.MatchString word then subSyllables word rest (sCount - 1)
    else subSyllables word rest sCount

/-- The loop of `SyllableCount` over `AddSyllables`. -/
def addSyllables (word : List Char) : List Re → Int → Int
  | [], sCount => sCount
  | regex :: rest, sCount =>
    if regex.MatchString word then addSyllables word rest (sCount + 1)
    else addSyllables word rest sCount

/-- The function `SyllableCount`. -/
def SyllableCount (env : Env) (word : List Char) : Int :=
  let word := word.map env.toLower
  match ProblemWords.get? word with
  | some sCount => sCount
  | none =>
    let (word, prefixSuffixCount) := stripPrefixSuffixes PrefixSuffixes word 0
    let wordPartCount := countWordParts (ConsonantsRegexp.Split word) 0
    let sCount := wordPartCount + prefixSuffixCount
    let sCount := subSyllables word SubSyllables sCount
    addSyllables word AddSyllables sCount

/-- The function `SyllableCountAlternative`. -/
def SyllableCountAlternative (env : Env) (word : List Char) : Int := env.syllablesIn word

/-! ### `fmt.Sprintf("%d-%d", ...)` -/

/-- The decimal digit of a number below ten. -/
def digitChar (n : Nat) : Char :=
  match n with
  | 0 => '0' | 1 => '1' | 2 => '2' | 3 => '3' | 4 => '4'
  | 5 => '5' | 6 => '6' | 7 => '7' | 8 => '8' | _ => '9'

/-- The decimal digits of a natural number in front of `acc`, most significant first. -/
def decimalLoop : Nat → Nat → List Char → List Char
  | 0, _, acc => acc
  | fuel + 1, n, acc =>
    if n / 10 = 0 then digitChar (n % 10) :: acc
    else decimalLoop fuel (n / 10) (digitChar (n % 10) :: acc)

/-- The verb `%d` on a non-negative number. -/
def formatNat (n : Nat) : List Char := decimalLoop (n + 1) n []

/-- The verb `%d`. -/
def formatInt : Int → List Char
  | .ofNat n => formatNat n
  | .negSucc n => '-' :: formatNat (n + 1)

/-- The call `fmt.Sprintf("%d-%d", a, b)`. -/
def sprintfPair (a b : Int) : List Char := formatInt a ++ '-' :: formatInt b

/-! ### `analyseWord` -/

/-- The idiom `if _, ok := m[k]; ok { m[k]++ } else { m[k] = 1 }`. -/
def increment (m : GoMap Int Int) (k : Int) : GoMap Int Int :=
  match m.get? k with
  | some v => m.set k (v + 1)
  | none => m.set k 1

/-- The `switch` of `analyseWord` that chooses `mostLikelySyllableCount`, with the
`mapKey` it is given.  No case applying leaves the variable at its zero value. -/
def chooseMostLikely (cmuSyllableCountPtr : Option Int)
    (defaultAlgoSyllableCount alternativeAlgoSyllableCount : Int) : Int :=
  let mapKey := sprintfPair defaultAlgoSyllableCount alternativeAlgoSyllableCount
  match cmuSyllableCountPtr with
  | some cmuSyllableCount => cmuSyllableCount
  | none =>
    if defaultAlgoSyllableCount = alternativeAlgoSyllableCount then defaultAlgoSyllableCount
    else if (ChooseDefaultAlgoOverAlternative.get? mapKey).getD false then
      defaultAlgoSyllableCount
    else 0

/-- The `SyllableAnalysis` that `analyseWord` computes for a word. -/
def analyseSyllables (env : Env) (word : List Char) : SyllableAnalysis :=
  let defaultAlgoSyllableCount := SyllableCount env word
  let alternativeAlgoSyllableCount := SyllableCountAlternative env word
  let cmuSyllableCountPtr := env.CMUDictSyllableCountPerWord word
  { CMUSyllableCount := cmuSyllableCountPtr
    DefaultAlgoSyllableCount := defaultAlgoSyllableCount
    AlternativeAlgoSyllableCount := alternativeAlgoSyllableCount
    MostLikelySyllableCount :=
      chooseMostLikely cmuSyllableCountPtr defaultAlgoSyllableCount
        alternativeAlgoSyllableCount }

/-- The last block of `analyseWord`: whether the word counts as difficult. -/
def isDifficult (env : Env) (word : List Char) : Bool :=
  if env.DaleChallWordList word then false
  else
    match pluralRegexp.FindStringSubmatch word with
    | some (_ :: stem :: _) => !env.DaleChallWordList stem
    | _ => true

/-- The function `analyseWord`, on the `Results` it is given a pointer to. -/
def analyseWord (env : Env) (word : List Char) (res : Results) : Results :=
  let res := { res with CountTotalWords := res.CountTotalWords + 1 }
  let syllables := analyseSyllables env word
  let mostLikelySyllableCount := syllables.MostLikelySyllableCount
  let res :=
    match res.WordList.get? word with
    | some w =>
      { res with WordList := res.WordList.set word { w with Occurrences := w.Occurrences + 1 } }
    | none =>
      { res with
        WordList := res.WordList.set word { Word := word, Occurrences := 1, Syllables := syllables }
        UniqueWordCountPerSyllableCount :=
          increment res.UniqueWordCountPerSyllableCount mostLikelySyllableCount
        CountUniqueWords := res.CountUniqueWords + 1 }
  let res := { res with Syllables := res.Syllables + mostLikelySyllableCount }
  let res :=
    { res with
      WordCountPerSyllableCount :=
        increment res.WordCountPerSyllableCount mostLikelySyllableCount }
  if isDifficult env word then { res with DifficultWords := res.DifficultWords + 1 } else res

/-! ### `Analyse` -/

/-- What the scanner makes of an `io.Reader`: the runes it delivers until it stops, and
the value of `scanner.Err()` after that (`none` for `nil`, at end of input). -/
structure Reader where
  runes : List Char
  err : Option String
  deriving DecidableEq, Repr

/-- The variables of the loop of `Analyse`.  The field `calls` is not in the program: it
records the argument of every call of `analyseWord`, in order. -/
structure Scan where
  word : List Char
  endWord : Bool
  res : Results
  calls : List (List Char)
  deriving DecidableEq, Repr

/-- The `Results` that `Analyse` starts from. -/
def emptyResults : Results :=
  { CountTotalWords := 0, CountUniqueWords := 0, Sentences := 0, Letters := 0,
    Punctuation := 0, Spaces := 0, Syllables := 0, DifficultWords := 0,
    WordCountPerSyllableCount := [], UniqueWordCountPerSyllableCount := [], WordList := [] }

/-- The state of `Analyse` before the loop. -/
def Scan.init : Scan := { word := [], endWord := false, res := emptyResults, calls := [] }

/-- The `switch` on the class of the rune. -/
def classify (env : Env) (s : Scan) (letter : Char) : Scan :=
  if env.isLetter letter then
    { s with
      res := { s.res with Letters := s.res.Letters + 1 }
      word := s.word ++ [letter]
      endWord := false }
  else if env.isSpace letter then
    { s with endWord := true, res := { s.res with Spaces := s.res.Spaces + 1 } }
  else if env.isPunct letter then
    let res :=
      if letter = '.' ∨ letter = '!' ∨ letter = '?' then
        { s.res with Sentences := s.res.Sentences + 1 }
      else s.res
    { s with endWord := true, res := { res with Punctuation := res.Punctuation + 1 } }
  else s

/-- The `if endWord && len(word) > 0` at the end of the loop body. -/
def flush (env : Env) (s : Scan) : Scan :=
  if s.endWord = true ∧ s.word ≠ [] then
    { word := [], endWord := false, res := analyseWord env s.word s.res,
      calls := s.calls ++ [s.word] }
  else s

/-- One turn of the loop of `Analyse`. -/
def scanStep (env : Env) (s : Scan) (letter : Char) : Scan := flush env (classify env s letter)

/-- The `if len(word) > 0` after the loop. -/
def finish (env : Env) (s : Scan) : Scan :=
  if s.word ≠ [] then
    { s with res := analyseWord env s.word s.res, calls := s.calls ++ [s.word] }
  else s

/-- The state of `Analyse` when it returns. -/
def scanAll (env : Env) (runes : List Char) : Scan :=
  finish env (runes.foldl (scanStep env) Scan.init)

/-- The function `Analyse`. -/
def Analyse (env : Env) (r : Reader) : Results × Option String :=
  ((scanAll env r.runes).res, r.err)

/-- The word events of a pass: the arguments of the calls of `analyseWord`, in order. -/
def wordEvents (env : Env) (runes : List Char) : List (List Char) := (scanAll env runes).calls

/-! ### An environment for examples -/

/-- The ASCII punctuation of `unicode.IsPunct`. -/
def asciiPunct : List Char :=
  ['!', Char.ofNat 34, '#', '%', '&', Char.ofNat 39, '(', ')', '*', ',', '-', '.', '/', ':', ';', '?',
    '@', '[', Char.ofNat 92, ']', '_', Char.ofNat 123, Char.ofNat 125]

/-- An environment whose Unicode tables are those of Go on the ASCII range and class every
other rune as neither letter, space nor punctuation; the estimator and the two tables
are arguments. -/
def asciiEnv (syllablesIn : List Char → Int) (cmu : List Char → Option Int)
    (daleChall : List Char → Bool) : Env :=
  { isLetter := fun c =>
      (decide ('a' ≤ c) && decide (c ≤ 'z')) || (decide ('A' ≤ c) && decide (c ≤ 'Z'))
    isSpace := fun c =>
      decide (c = ' ') || (decide (Char.ofNat 9 ≤ c) && decide (c ≤ Char.ofNat 13))
    isPunct := fun c => decide (c ∈ asciiPunct)
    toLower := fun c =>
      if 'A' ≤ c ∧ c ≤ 'Z' then Char.ofNat (c.toNat + 32) else c
    syllablesIn := syllablesIn
    CMUDictSyllableCountPerWord := cmu
    DaleChallWordList := daleChall }

/-! ### The word events as the specification describes them -/

/-- The four classes of runes, in the order the `switch` of `Analyse` tests them. -/
inductive RuneClass where
  | letter
  | space
  | punctuation
  | other
  deriving DecidableEq, Repr

/-- The class of a rune. -/
def runeClass (env : Env) (c : Char) : RuneClass :=
  if env.isLetter c then .letter
  else if env.isSpace c then .space
  else if env.isPunct c then .punctuation
  else .other

/-- The runes that are not of class Other. -/
def dropOther (env : Env) (runes : List Char) : List Char :=
  runes.filter fun c => decide (runeClass env c ≠ .other)

/-- The runes that delimit words: those of class Space or Punctuation. -/
def isDelimiter (env : Env) (c : Char) : Bool :=
  decide (runeClass env c = .space ∨ runeClass env c = .punctuation)

/-- The specification's word events: delete the Other runes, cut at every Space or
Punctuation rune, keep the non-empty pieces. -/
def letterRuns (env : Env) (runes : List Char) : List (List Char) :=
  ((dropOther env runes).splitOnP (isDelimiter env)).filter fun w => decide (w ≠ [])

/-- Between two turns of the loop a set end flag comes with an empty buffer. -/
def Scan.Ready (s : Scan) : Prop := s.endWord = true → s.word = []

/-- The pairs of counts of the tie-break table, as the specification lists them. -/
def tieBreakPairs : List (Int × Int) := [(2, 3), (3, 4), (4, 5), (5, 4), (6, 5), (6, 7), (7, 6)]

/-! ### The aggregate of a list of word events -/

/-- The `Results` after calling `analyseWord` on each word in turn, from the empty one. -/
def aggregate (env : Env) (calls : List (List Char)) : Results :=
  calls.foldl (fun res word => analyseWord env word res) emptyResults

/-- The record `r` with the four counters of the tokenizer taken from `c`. -/
def withCounters (r c : Results) : Results :=
  { r with
    Letters := c.Letters, Spaces := c.Spaces, Punctuation := c.Punctuation,
    Sentences := c.Sentences }

/-- The sum of `k * m[k]` over the keys of a histogram. -/
def weightedSum (m : GoMap Int Int) : Int := (m.map fun p => p.1 * p.2).sum

/-- The sum of `Occurrences * MostLikelySyllableCount` over the entries of a word list. -/
def occurrenceSyllables (m : GoMap (List Char) Word) : Int :=
  (m.map fun p => p.2.Occurrences * p.2.Syllables.MostLikelySyllableCount).sum

/-- The rules of `SyllableCount` after the look-up in `ProblemWords`, on the folded word:
strip, split, subtract, add. -/
def ruleCount (word : List Char) : Int :=
  let (word, prefixSuffixCount) := stripPrefixSuffixes PrefixSuffixes word 0
  let wordPartCount := countWordParts (ConsonantsRegexp.Split word) 0
  let sCount := wordPartCount + prefixSuffixCount
  let sCount := subSyllables word SubSyllables sCount
  addSyllables word AddSyllables sCount

/-! ### The derived values -/

/-- The loop of `WordsWithAtLeastNSyllables` over the entries of the histogram.  Go visits
the entries in no fixed order; the total does not depend on it
(`wordsWithAtLeastLoop_perm`). -/
def wordsWithAtLeastLoop (n : Int) : List (Int × Int) → Int → Int
  | [], total => total
  | (sCount, wCount) :: rest, total =>
    if sCount ≥ n then wordsWithAtLeastLoop n rest (total + wCount)
    else wordsWithAtLeastLoop n rest total

/-- The method `WordsWithAtLeastNSyllables`. -/
def Results.WordsWithAtLeastNSyllables (r : Results) (n : Int) : Int :=
  let total := wordsWithAtLeastLoop n r.WordCountPerSyllableCount 0
  if total < 0 then 0 else total

/-- What the program takes from Go's `float64`, on a type `F` of values: the conversion
`float64(i)` of an `int` and the quotient `x / y`. -/
structure FloatOps (F : Type) where
  ofInt : Int → F
  div : F → F → F

/-- The method `AverageWordsPerSentence`. -/
def Results.AverageWordsPerSentence {F : Type} (fl : FloatOps F) (r : Results) : F :=
  if r.Sentences = 0 then fl.ofInt r.CountTotalWords
  else fl.div (fl.ofInt r.CountTotalWords) (fl.ofInt r.Sentences)

/-- The values of a computation on `float64`: a rational number, an infinity or NaN.  The
two zeros of IEEE 754 are one value. -/
inductive ExactFloat where
  | finite (q : ℚ)
  | posInf
  | negInf
  | nan
  deriving DecidableEq

/-- The quotient of IEEE 754 on values without rounding (and without signed zeros): a
non-zero number over zero is an infinity, zero over zero is NaN. -/
def ExactFloat.div : ExactFloat → ExactFloat → ExactFloat
  | .nan, _ => .nan
  | _, .nan => .nan
  | .finite a, .finite b =>
    if b = 0 then (if a = 0 then .nan else if 0 < a then .posInf else .negInf)
    else .finite (a / b)
  | .finite _, .posInf => .finite 0
  | .finite _, .negInf => .finite 0
  | .posInf, .finite b => if 0 ≤ b then .posInf else .negInf
  | .negInf, .finite b => if 0 ≤ b then .negInf else .posInf
  | .posInf, .posInf => .nan
  | .posInf, .negInf => .nan
  | .negInf, .posInf => .nan
  | .negInf, .negInf => .nan

/-- An idealisation of the operations of `float64`, without rounding.  Go's operations round
(see `binary64`). -/
def exactFloat : FloatOps ExactFloat :=
  { ofInt := fun i => .finite (i : ℚ), div := ExactFloat.div }

/-- What the readability formulas take from `float64` besides the conversion and the
quotient: sum, difference, product, the value of a decimal constant of the program text,
and the comparisons `x == y` and `x < y`. -/
structure FloatArith (F : Type) extends FloatOps F where
  add : F → F → F
  sub : F → F → F
  mul : F → F → F
  lit : ℚ → F
  beq : F → F → Bool
  lt : F → F → Bool

/-- The variable `sentences` of the formulas: `float64(r.Sentences)`, replaced by 1 when
it compares equal to 0. -/
def Results.sentencesOrOne {F : Type} (fl : FloatArith F) (r : Results) : F :=
  let sentences := fl.ofInt r.Sentences
  if fl.beq sentences (fl.lit 0) then fl.lit 1 else sentences

/-- The term `float64(r.CountTotalWords) / sentences` of `AutomatedReadabilityIndex` and
`DaleChallReadabilityScore`. -/
def Results.wordsPerSentenceTerm {F : Type} (fl : FloatArith F) (r : Results) : F :=
  fl.div (fl.ofInt r.CountTotalWords) (r.sentencesOrOne fl)

/-- The method `AutomatedReadabilityIndex`. -/
def Results.AutomatedReadabilityIndex {F : Type} (fl : FloatArith F) (r : Results) : F :=
  fl.sub
    (fl.add
      (fl.mul (fl.lit (471 / 100)) (fl.div (fl.ofInt r.Letters) (fl.ofInt r.CountTotalWords)))
      (fl.mul (fl.lit (1 / 2)) (r.wordsPerSentenceTerm fl)))
    (fl.lit (2143 / 100))

/-- The method `DaleChallReadabilityScore`. -/
def Results.DaleChallReadabilityScore {F : Type} (fl : FloatArith F) (r : Results) : F :=
  let difficultyPercentage :=
    fl.mul (fl.div (fl.ofInt r.DifficultWords) (fl.ofInt r.CountTotalWords)) (fl.lit 100)
  let score :=
    fl.add (fl.mul (fl.lit (1579 / 10000)) difficultyPercentage)
      (fl.mul (fl.lit (496 / 10000)) (r.wordsPerSentenceTerm fl))
  if fl.lt (fl.lit 5) difficultyPercentage then fl.add score (fl.lit (36365 / 10000))
  else score

/-- The opposite of a value without rounding. -/
def ExactFloat.neg : ExactFloat → ExactFloat
  | .finite a => .finite (-a)
  | .posInf => .negInf
  | .negInf => .posInf
  | .nan => .nan

/-- The sum of IEEE 754 on values without rounding: opposite infinities add to NaN. -/
def ExactFloat.add : ExactFloat → ExactFloat → ExactFloat
  | .nan, _ => .nan
  | _, .nan => .nan
  | .finite a, .finite b => .finite (a + b)
  | .finite _, .posInf => .posInf
  | .finite _, .negInf => .negInf
  | .posInf, .finite _ => .posInf
  | .negInf, .finite _ => .negInf
  | .posInf, .posInf => .posInf
  | .negInf, .negInf => .negInf
  | .posInf, .negInf => .nan
  | .negInf, .posInf => .nan

/-- The difference on values without rounding. -/
def ExactFloat.sub (a b : ExactFloat) : ExactFloat := a.add b.neg

/-- The sign of a non-zero number applied to an infinity; NaN for zero. -/
def ExactFloat.signedInf (a : ℚ) (positive : Bool) : ExactFloat :=
  if a = 0 then .nan
  else if decide (0 < a) = positive then .posInf else .negInf

/-- The product of IEEE 754 on values without rounding: zero times an infinity is NaN. -/
def ExactFloat.mul : ExactFloat → ExactFloat → ExactFloat
  | .nan, _ => .nan
  | _, .nan => .nan
  | .finite a, .finite b => .finite (a * b)
  | .finite a, .posInf => ExactFloat.signedInf a true
  | .finite a, .negInf => ExactFloat.signedInf a false
  | .posInf, .finite b => ExactFloat.signedInf b true
  | .negInf, .finite b => ExactFloat.signedInf b false
  | .posInf, .posInf => .posInf
  | .negInf, .negInf => .posInf
  | .posInf, .negInf => .negInf
  | .negInf, .posInf => .negInf

/-- The comparison `x == y` of IEEE 754: NaN is equal to nothing. -/
def ExactFloat.beq : ExactFloat → ExactFloat → Bool
  | .finite a, .finite b => decide (a = b)
  | .posInf, .posInf => true
  | .negInf, .negInf => true
  | _, _ => false

/-- The comparison `x < y` of IEEE 754: NaN is below and above nothing. -/
def ExactFloat.lt : ExactFloat → ExactFloat → Bool
  | .finite a, .finite b => decide (a < b)
  | .finite _, .posInf => true
  | .negInf, .finite _ => true
  | .negInf, .posInf => true
  | _, _ => false

/-- An idealisation of the arithmetic of `float64`, without rounding. -/
def exactArith : FloatArith ExactFloat :=
  { toFloatOps := exactFloat
    add := ExactFloat.add
    sub := ExactFloat.sub
    mul := ExactFloat.mul
    lit := fun q => .finite q
    beq := ExactFloat.beq
    lt := ExactFloat.lt }

/-- The divisor `S'` of the claim on the two conventions: 1 when `Sentences` is 0. -/
def Results.sentencesSpec (r : Results) : Int := if r.Sentences = 0 then 1 else r.Sentences

/-- The sum of `Occurrences * length` over the entries of a word list. -/
def occurrenceLetters (m : GoMap (List Char) Word) : Int :=
  (m.map fun p => p.2.Occurrences * (p.1.length : Int)).sum

/-! ### The `float64` of IEEE 754 -/

/-- The natural number nearest to a non-negative rational, the even one of two that are
equally near. -/
def roundHalfEven (s : ℚ) : ℕ :=
  let f := ⌊s⌋₊
  if s - f < 1 / 2 then f
  else if 1 / 2 < s - f then f + 1
  else if f % 2 = 0 then f else f + 1

/-- The exponent of the last place of the binary64 numbers around a positive rational:
52 places below the leading bit, and no lower than that of the subnormal numbers. -/
def lastPlace (a : ℚ) : ℤ := max (Int.log 2 a - 52) (-1074)

/-- The rounding of IEEE 754 to binary64, to nearest with ties to even: the nearest
number with a 53-bit significand, an infinity from `2^1024` on.  The two zeros of
binary64 are one value here. -/
def round64 (q : ℚ) : ExactFloat :=
  if q = 0 then .finite 0
  else
    let v : ℚ := (roundHalfEven (|q| / 2 ^ lastPlace |q|) : ℚ) * 2 ^ lastPlace |q|
    if (2 : ℚ) ^ (1024 : ℤ) ≤ v then (if 0 < q then .posInf else .negInf)
    else .finite (if 0 < q then v else -v)

/-- The quotient of binary64: the rounded quotient of two numbers, and the infinities and
NaN of IEEE 754 otherwise. -/
def div64 : ExactFloat → ExactFloat → ExactFloat
  | .finite a, .finite b =>
    if b = 0 then ExactFloat.div (.finite a) (.finite b) else round64 (a / b)
  | x, y => ExactFloat.div x y

/-- The conversion and the quotient of Go's `float64`, with their rounding. -/
def binary64 : FloatOps ExactFloat :=
  { ofInt := fun i => round64 (i : ℚ), div := div64 }

/-! ### The tokenizer and the stem as the specification describes them -/

/-- The runes that end a sentence. -/
def isSentenceEnd (c : Char) : Bool := decide (c = '.' ∨ c = '!' ∨ c = '?')

/-- The ASCII letters, the runes of the class `[a-zA-Z]`. -/
def isAsciiLetter (c : Char) : Bool :=
  (decide ('a' ≤ c) && decide (c ≤ 'z')) || (decide ('A' ≤ c) && decide (c ≤ 'Z'))

/-- The specification's stem of a word of ASCII letters: the word without one trailing
`s` when it has at least two runes and ends in `s`, the word itself otherwise. -/
def pluralStem (w : List Char) : List Char :=
  if 2 ≤ w.length ∧ w.getLast? = some 's' then w.dropLast else w

/-- The specification's difficult words: neither the word nor its stem is in the list. -/
def isDifficultSpec (env : Env) (w : List Char) : Bool :=
  !env.DaleChallWordList w && !env.DaleChallWordList (pluralStem w)

/-- The text that the second group of `pluralRegexp` matches after a run of ASCII letters
followed by the ASCII letters `l`: the last rune of `l` if it is an `s`, else nothing. -/
def stopSuffix : List Char → List Char
  | [] => []
  | [y] => if y = 's' then ['s'] else []
  | _ :: z :: zs => stopSuffix (z :: zs)

/-! ## Lemmas on maps -/

namespace GoMap

variable {κ ν : Type} [DecidableEq κ]

theorem get?_set_self (m : GoMap κ ν) (k : κ) (v : ν) : (m.set k v).get? k = some v := by
  induction m with
  | nil => simp [set, get?]
  | cons p t ih =>
    obtain ⟨k', v'⟩ := p
    by_cases h : k' = k
    · simp [set, get?, h]
    · simp [set, get?, h, ih]

theorem get?_set_of_ne (m : GoMap κ ν) {k j : κ} (v : ν) (h : k ≠ j) :
    (m.set k v).get? j = m.get? j := by
  induction m with
  | nil => simp [set, get?, h]
  | cons p t ih =>
    obtain ⟨k', v'⟩ := p
    by_cases h1 : k' = k
    · subst h1
      simp [set, get?, h]
    · by_cases h2 : k' = j
      · subst h2
        simp [set, get?, h1]
      · simp [set, get?, h1, h2, ih]

theorem get?_eq_none_iff (m : GoMap κ ν) (k : κ) : m.get? k = none ↔ k ∉ m.keys := by
  induction m with
  | nil => simp [get?, keys]
  | cons p t ih =>
    obtain ⟨k', v'⟩ := p
    by_cases h : k' = k
    · simp [get?, keys, h]
    · have h' : ¬k = k' := fun e => h e.symm
      simpa [get?, keys, h, h'] using ih

theorem keys_set (m : GoMap κ ν) (k : κ) (v : ν) :
    (m.set k v).keys = if (m.get? k).isSome then m.keys else m.keys ++ [k] := by
  induction m with
  | nil => simp [set, get?, keys]
  | cons p t ih =>
    obtain ⟨k', v'⟩ := p
    by_cases h : k' = k
    · simp [set, get?, keys, h]
    · simp only [keys] at ih
      simp only [set, get?, keys, h, if_false, List.map_cons, ih]
      split <;> simp

theorem length_set (m : GoMap κ ν) (k : κ) (v : ν) :
    (m.set k v).length = if (m.get? k).isSome then m.length else m.length + 1 := by
  have h := congrArg List.length (keys_set m k v)
  simp only [keys, List.length_map] at h
  rw [h]
  split <;> simp

theorem nodup_keys_set (m : GoMap κ ν) (k : κ) (v : ν) (h : m.keys.Nodup) :
    (m.set k v).keys.Nodup := by
  rw [keys_set]
  split
  · exact h
  · rename_i hk
    have hk' : m.get? k = none := by
      cases hg : m.get? k with
      | none => rfl
      | some x => simp [hg] at hk
    have hmem := (get?_eq_none_iff m k).1 hk'
    exact List.Nodup.append h (List.nodup_singleton k) (by simpa using hmem)

/-- The effect of `m[k] = v` on a sum over the entries of the map. -/
theorem sum_map_set (f : κ → ν → Int) (m : GoMap κ ν) (k : κ) (v : ν) :
    ((m.set k v).map fun p => f p.1 p.2).sum =
      (m.map fun p => f p.1 p.2).sum
        - (match m.get? k with
          | some v0 => f k v0
          | none => 0)
        + f k v := by
  induction m with
  | nil => simp [set, get?]
  | cons p t ih =>
    obtain ⟨k', v'⟩ := p
    by_cases h : k' = k
    · subst h
      simp [set, get?]
      ring
    · simp only [set, get?, h, if_false, List.map_cons, List.sum_cons, ih]
      ring

end GoMap

/-! ## Lemmas on `%d` -/

theorem length_decimalLoop_succ (fuel n : Nat) (acc : List Char) :
    acc.length < (decimalLoop (fuel + 1) n acc).length := by
  induction fuel generalizing n acc with
  | zero =>
    unfold decimalLoop
    split
    · simp
    · simp [decimalLoop]
  | succ k ih =>
    unfold decimalLoop
    split
    · simp
    · have := ih (n / 10) (digitChar (n % 10) :: acc)
      simp only [List.length_cons] at this
      omega

theorem length_formatNat_pos (n : Nat) : 1 ≤ (formatNat n).length := by
  have := length_decimalLoop_succ n n []
  simpa [formatNat] using this

theorem length_formatNat_of_ten_le {n : Nat} (h : 10 ≤ n) : 2 ≤ (formatNat n).length := by
  obtain ⟨k, rfl⟩ : ∃ k, n = k + 1 := ⟨n - 1, by omega⟩
  have hq : (k + 1) / 10 ≠ 0 := by omega
  have := length_decimalLoop_succ k ((k + 1) / 10) [digitChar ((k + 1) % 10)]
  unfold formatNat decimalLoop
  rw [if_neg hq]
  simpa using this

theorem length_formatInt_pos (a : Int) : 1 ≤ (formatInt a).length := by
  cases a with
  | ofNat n => exact length_formatNat_pos n
  | negSucc n => simp [formatInt]

/-- A rendering of length one is that of a number from 0 to 9. -/
theorem formatInt_length_one {a : Int} (h : (formatInt a).length = 1) :
    ∃ n : Nat, n < 10 ∧ a = (n : Int) := by
  cases a with
  | ofNat n =>
    refine ⟨n, ?_, rfl⟩
    by_contra hn
    have := length_formatNat_of_ten_le (Nat.le_of_not_lt hn)
    simp only [formatInt] at h
    omega
  | negSucc n =>
    have := length_formatNat_pos (n + 1)
    simp only [formatInt, List.length_cons] at h
    omega

theorem tieBreak_key_length {key : List Char}
    (h : (ChooseDefaultAlgoOverAlternative.get? key).getD false = true) : key.length = 3 := by
  simp only [ChooseDefaultAlgoOverAlternative, GoMap.get?] at h
  split_ifs at h with h1 h2 h3 h4 h5 h6 h7
  any_goals (subst_vars; rfl)
  simp at h

theorem tieBreak_small :
    ∀ n : Fin 10, ∀ m : Fin 10,
      (ChooseDefaultAlgoOverAlternative.get?
          (sprintfPair ((n : Nat) : Int) ((m : Nat) : Int))).getD false = true →
        (((n : Nat) : Int), ((m : Nat) : Int)) ∈ tieBreakPairs := by
  decide

/-- The key built from two counts is in the tie-break table exactly for the seven pairs. -/
theorem tieBreak_key_iff (d a : Int) :
    (ChooseDefaultAlgoOverAlternative.get? (sprintfPair d a)).getD false = true ↔
      (d, a) ∈ tieBreakPairs := by
  constructor
  · intro h
    have hl := tieBreak_key_length h
    have hd := length_formatInt_pos d
    have ha := length_formatInt_pos a
    simp only [sprintfPair, List.length_append, List.length_cons] at hl
    obtain ⟨n, hn, rfl⟩ := formatInt_length_one (a := d) (by omega)
    obtain ⟨m, hm, rfl⟩ := formatInt_length_one (a := a) (by omega)
    exact tieBreak_small ⟨n, hn⟩ ⟨m, hm⟩ h
  · intro h
    simp only [tieBreakPairs, List.mem_cons, Prod.mk.injEq, List.mem_singleton,
      List.not_mem_nil, or_false] at h
    rcases h with h | h | h | h | h | h | h <;> obtain ⟨rfl, rfl⟩ := h <;> decide

/-! ## The effect of `analyseWord`, field by field -/

theorem sum_values_increment (m : GoMap Int Int) (k : Int) :
    (increment m k).values.sum = m.values.sum + 1 := by
  have h := fun v => GoMap.sum_map_set (fun _ x => x) m k v
  simp only [GoMap.values, increment] at h ⊢
  cases hg : m.get? k with
  | none =>
    have := h 1
    simp only [hg] at this ⊢
    rw [show (Prod.snd : Int × Int → Int) = fun p => p.2 from rfl, this]
    ring
  | some v0 =>
    have := h (v0 + 1)
    simp only [hg] at this ⊢
    rw [show (Prod.snd : Int × Int → Int) = fun p => p.2 from rfl, this]
    ring

theorem weightedSum_increment (m : GoMap Int Int) (k : Int) :
    weightedSum (increment m k) = weightedSum m + k := by
  have h := fun v => GoMap.sum_map_set (fun a x => a * x) m k v
  simp only [weightedSum, increment] at h ⊢
  cases hg : m.get? k with
  | none =>
    have := h 1
    simp only [hg] at this ⊢
    rw [this]
    ring
  | some v0 =>
    have := h (v0 + 1)
    simp only [hg] at this ⊢
    rw [this]
    ring

theorem analyseWord_CountTotalWords (env : Env) (w : List Char) (r : Results) :
    (analyseWord env w r).CountTotalWords = r.CountTotalWords + 1 := by
  unfold analyseWord
  simp only []
  split <;> split <;> rfl

theorem analyseWord_WordCount (env : Env) (w : List Char) (r : Results) :
    (analyseWord env w r).WordCountPerSyllableCount =
      increment r.WordCountPerSyllableCount (analyseSyllables env w).MostLikelySyllableCount := by
  unfold analyseWord
  simp only []
  split <;> split <;> rfl

theorem analyseWord_Syllables (env : Env) (w : List Char) (r : Results) :
    (analyseWord env w r).Syllables =
      r.Syllables + (analyseSyllables env w).MostLikelySyllableCount := by
  unfold analyseWord
  simp only []
  split <;> split <;> rfl

theorem analyseWord_DifficultWords (env : Env) (w : List Char) (r : Results) :
    (analyseWord env w r).DifficultWords =
      r.DifficultWords + (if isDifficult env w then 1 else 0) := by
  unfold analyseWord
  simp only []
  split <;> split <;> simp

theorem analyseWord_WordList (env : Env) (w : List Char) (r : Results) :
    (analyseWord env w r).WordList =
      match r.WordList.get? w with
      | some e => r.WordList.set w { e with Occurrences := e.Occurrences + 1 }
      | none =>
        r.WordList.set w { Word := w, Occurrences := 1, Syllables := analyseSyllables env w } := by
  unfold analyseWord
  simp only []
  split <;> split <;> rfl

theorem analyseWord_Unique (env : Env) (w : List Char) (r : Results) :
    (analyseWord env w r).UniqueWordCountPerSyllableCount =
      match r.WordList.get? w with
      | some _ => r.UniqueWordCountPerSyllableCount
      | none =>
        increment r.UniqueWordCountPerSyllableCount
          (analyseSyllables env w).MostLikelySyllableCount := by
  unfold analyseWord
  simp only []
  split <;> split <;> rfl

theorem analyseWord_CountUniqueWords (env : Env) (w : List Char) (r : Results) :
    (analyseWord env w r).CountUniqueWords =
      match r.WordList.get? w with
      | some _ => r.CountUniqueWords
      | none => r.CountUniqueWords + 1 := by
  unfold analyseWord
  simp only []
  split <;> split <;> rfl

/-- The function `analyseWord` leaves the four counters of the tokenizer alone. -/
theorem analyseWord_counters (env : Env) (w : List Char) (r : Results) :
    (analyseWord env w r).Letters = r.Letters ∧ (analyseWord env w r).Spaces = r.Spaces ∧
      (analyseWord env w r).Punctuation = r.Punctuation ∧
      (analyseWord env w r).Sentences = r.Sentences := by
  unfold analyseWord
  simp only []
  split <;> split <;> exact ⟨rfl, rfl, rfl, rfl⟩

theorem analyseWord_withCounters (env : Env) (w : List Char) (r c : Results) :
    analyseWord env w (withCounters r c) = withCounters (analyseWord env w r) c := by
  unfold analyseWord withCounters
  simp only []
  split <;> split <;> rfl

theorem aggregate_snoc (env : Env) (calls : List (List Char)) (w : List Char) :
    aggregate env (calls ++ [w]) = analyseWord env w (aggregate env calls) := by
  simp [aggregate, List.foldl_append]

/-! ## The loop of `Analyse` -/

theorem flush_ready (env : Env) (s : Scan) : (flush env s).Ready := by
  unfold flush Scan.Ready
  split
  · intro h
    simp at h
  · rename_i hc
    intro h
    by_contra hw
    exact hc ⟨h, hw⟩

theorem scanStep_ready (env : Env) (s : Scan) (c : Char) : (scanStep env s c).Ready :=
  flush_ready env _

theorem init_ready : Scan.init.Ready := by
  intro h
  rfl

theorem foldl_scanStep_ready (env : Env) (runes : List Char) (s : Scan) (h : s.Ready) :
    (runes.foldl (scanStep env) s).Ready := by
  induction runes generalizing s with
  | nil => exact h
  | cons c cs ih => exact ih _ (scanStep_ready env s c)

/-- A rune of class Other leaves the variables of the loop as they are. -/
theorem scanStep_other (env : Env) (s : Scan) (c : Char) (hs : s.Ready)
    (hc : runeClass env c = .other) : scanStep env s c = s := by
  have h1 : env.isLetter c = false := by
    cases h : env.isLetter c with
    | false => rfl
    | true => simp [runeClass, h] at hc
  have h2 : env.isSpace c = false := by
    cases h : env.isSpace c with
    | false => rfl
    | true => simp [runeClass, h1, h] at hc
  have h3 : env.isPunct c = false := by
    cases h : env.isPunct c with
    | false => rfl
    | true => simp [runeClass, h1, h2, h] at hc
  have hcl : classify env s c = s := by simp [classify, h1, h2, h3]
  unfold scanStep flush
  rw [hcl]
  split
  · rename_i hh
    exact absurd (hs hh.1) hh.2
  · rfl

theorem foldl_scanStep_dropOther (env : Env) (runes : List Char) (s : Scan) (hs : s.Ready) :
    runes.foldl (scanStep env) s = (dropOther env runes).foldl (scanStep env) s := by
  induction runes generalizing s with
  | nil => rfl
  | cons c cs ih =>
    by_cases hc : runeClass env c = .other
    · have hd : dropOther env (c :: cs) = dropOther env cs := by simp [dropOther, hc]
      rw [List.foldl_cons, scanStep_other env s c hs hc, hd]
      exact ih s hs
    · have hd : dropOther env (c :: cs) = c :: dropOther env cs := by simp [dropOther, hc]
      rw [List.foldl_cons, hd, List.foldl_cons]
      exact ih _ (scanStep_ready env s c)

theorem isDelimiter_of_isLetter (env : Env) {c : Char} (h : env.isLetter c = true) :
    isDelimiter env c = false := by
  simp [isDelimiter, runeClass, h]

/-- The calls of `analyseWord` from any turn of the loop on. -/
theorem calls_finish_foldl (env : Env) (runes : List Char) :
    ∀ s : Scan, s.Ready → (∀ c ∈ s.word, env.isLetter c = true) →
      (finish env (runes.foldl (scanStep env) s)).calls =
        s.calls ++ ((s.word ++ dropOther env runes).splitOnP (isDelimiter env)).filter
          fun w => decide (w ≠ []) := by
  induction runes with
  | nil =>
    intro s _ hw
    have hsingle : s.word.splitOnP (isDelimiter env) = [s.word] :=
      List.splitOnP_eq_single _ _ (by
        intro x hx
        simp [isDelimiter_of_isLetter env (hw x hx)])
    simp only [List.foldl_nil, dropOther, List.filter_nil, List.append_nil, hsingle]
    unfold finish
    by_cases h : s.word = []
    · simp [h]
    · simp [h]
  | cons c cs ih =>
    intro s hr hw
    rw [List.foldl_cons]
    have hnd : ∀ x ∈ s.word, ¬isDelimiter env x = true := by
      intro x hx
      simp [isDelimiter_of_isLetter env (hw x hx)]
    by_cases hl : env.isLetter c = true
    · have hstep : scanStep env s c =
          { s with
            res := { s.res with Letters := s.res.Letters + 1 }
            word := s.word ++ [c]
            endWord := false } := by
        simp [scanStep, classify, flush, hl]
      have hd : dropOther env (c :: cs) = c :: dropOther env cs := by
        simp [dropOther, runeClass, hl]
      rw [hstep, ih _ (by intro h; simp at h) (by
        intro x hx
        simp only [List.mem_append, List.mem_singleton] at hx
        rcases hx with hx | rfl
        · exact hw x hx
        · exact hl), hd]
      simp
    · by_cases hdl : isDelimiter env c = true
      · have hd : dropOther env (c :: cs) = c :: dropOther env cs := by
          have : runeClass env c ≠ .other := by
            intro h
            simp [isDelimiter, h] at hdl
          simp [dropOther, this]
        have hcl : (classify env s c).word = s.word ∧ (classify env s c).endWord = true ∧
            (classify env s c).calls = s.calls := by
          have hl' : env.isLetter c = false := by simpa using hl
          unfold classify
          rw [hl']
          by_cases hsp : env.isSpace c = true
          · simp [hsp]
          · have hsp' : env.isSpace c = false := by simpa using hsp
            have hp : env.isPunct c = true := by
              cases h : env.isPunct c with
              | true => rfl
              | false => simp [isDelimiter, runeClass, hl', hsp', h] at hdl
            simp [hsp', hp]
        obtain ⟨hw1, he1, hc1⟩ := hcl
        rw [hd, List.splitOnP_first _ _ hnd c hdl]
        by_cases hemp : s.word = []
        · have hstep : scanStep env s c = classify env s c := by
            unfold scanStep flush
            rw [if_neg]
            rw [hw1]
            exact fun h => h.2 hemp
          rw [hstep, ih _ (by intro _; rw [hw1]; exact hemp) (by
            rw [hw1, hemp]
            intro x hx
            simp at hx), hc1, hw1, hemp]
          simp
        · have hstep : scanStep env s c =
              { word := [], endWord := false,
                res := analyseWord env s.word (classify env s c).res,
                calls := s.calls ++ [s.word] } := by
            unfold scanStep flush
            rw [if_pos ⟨he1, by rw [hw1]; exact hemp⟩, hw1, hc1]
          rw [hstep, ih _ (by intro h; simp at h) (by
            intro x hx
            simp at hx)]
          simp [hemp]
      · have hoth : runeClass env c = .other := by
          have hl' : env.isLetter c = false := by simpa using hl
          cases hsp : env.isSpace c with
          | true => simp [isDelimiter, runeClass, hl', hsp] at hdl
          | false =>
            cases hp : env.isPunct c with
            | true => simp [isDelimiter, runeClass, hl', hsp, hp] at hdl
            | false => simp [runeClass, hl', hsp, hp]
        have hd : dropOther env (c :: cs) = dropOther env cs := by simp [dropOther, hoth]
        rw [scanStep_other env s c hr hoth, hd]
        exact ih s hr hw

theorem wordEvents_eq_letterRuns (env : Env) (runes : List Char) :
    wordEvents env runes = letterRuns env runes := by
  have h := calls_finish_foldl env runes Scan.init init_ready (by
    intro c hc
    simp [Scan.init] at hc)
  simpa [wordEvents, scanAll, letterRuns, Scan.init] using h

/-! ## The aggregate of the word events -/

theorem aggregate_totalWords (env : Env) (calls : List (List Char)) :
    (aggregate env calls).CountTotalWords = (calls.length : Int) := by
  induction calls using List.reverseRecOn with
  | nil => rfl
  | append_singleton l x ih =>
    rw [aggregate_snoc, analyseWord_CountTotalWords, ih]
    simp

theorem aggregate_wordCount_sum (env : Env) (calls : List (List Char)) :
    (aggregate env calls).WordCountPerSyllableCount.values.sum =
      (aggregate env calls).CountTotalWords := by
  induction calls using List.reverseRecOn with
  | nil => rfl
  | append_singleton l x ih =>
    rw [aggregate_snoc, analyseWord_CountTotalWords, analyseWord_WordCount,
      sum_values_increment, ih]

/-- The entry of the word list for a spelling, in terms of the word events. -/
theorem aggregate_wordList_get? (env : Env) (calls : List (List Char)) (w : List Char) :
    (aggregate env calls).WordList.get? w =
      if w ∈ calls then
        some { Word := w, Occurrences := (calls.count w : Int), Syllables := analyseSyllables env w }
      else none := by
  induction calls using List.reverseRecOn with
  | nil => simp [aggregate, emptyResults, GoMap.get?]
  | append_singleton l x ih =>
    rw [aggregate_snoc, analyseWord_WordList]
    by_cases hwx : w = x
    · subst hwx
      by_cases hmem : w ∈ l
      · rw [ih, if_pos hmem]
        simp only [GoMap.get?_set_self]
        simp [List.count_append]
      · rw [ih, if_neg hmem]
        simp only [GoMap.get?_set_self]
        simp [List.count_append, List.count_eq_zero_of_not_mem hmem]
    · have hxw : x ≠ w := fun e => hwx e.symm
      have hcount : (l ++ [x]).count w = l.count w := by
        simp [List.count_append, List.count_singleton, hxw]
      have hmem : w ∈ l ++ [x] ↔ w ∈ l := by simp [hwx]
      split <;> rw [GoMap.get?_set_of_ne _ _ hxw, ih, hcount] <;> simp only [hmem]

theorem aggregate_unique (env : Env) (calls : List (List Char)) :
    (aggregate env calls).UniqueWordCountPerSyllableCount.values.sum =
        (aggregate env calls).CountUniqueWords ∧
      (aggregate env calls).CountUniqueWords = ((aggregate env calls).WordList.keys.length : Int) ∧
      (aggregate env calls).WordList.keys.Nodup := by
  induction calls using List.reverseRecOn with
  | nil => simp [aggregate, emptyResults, GoMap.values, GoMap.keys]
  | append_singleton l x ih =>
    obtain ⟨h1, h2, h3⟩ := ih
    rw [aggregate_snoc, analyseWord_Unique, analyseWord_CountUniqueWords, analyseWord_WordList]
    cases hg : (aggregate env l).WordList.get? x with
    | some e =>
      refine ⟨h1, ?_, GoMap.nodup_keys_set _ _ _ h3⟩
      simp only [GoMap.keys_set, hg, Option.isSome_some, if_true]
      exact h2
    | none =>
      refine ⟨?_, ?_, GoMap.nodup_keys_set _ _ _ h3⟩
      · simp only [sum_values_increment, h1]
      · simp only [GoMap.keys_set, hg, Option.isSome_none, Bool.false_eq_true, if_false,
          List.length_append, List.length_singleton, h2]
        push_cast
        rfl

theorem aggregate_syllables (env : Env) (calls : List (List Char)) :
    (aggregate env calls).Syllables =
      (calls.map fun w => (analyseSyllables env w).MostLikelySyllableCount).sum := by
  induction calls using List.reverseRecOn with
  | nil => rfl
  | append_singleton l x ih =>
    rw [aggregate_snoc, analyseWord_Syllables, ih]
    simp

theorem aggregate_weightedSum (env : Env) (calls : List (List Char)) :
    weightedSum (aggregate env calls).WordCountPerSyllableCount =
      (aggregate env calls).Syllables := by
  induction calls using List.reverseRecOn with
  | nil => rfl
  | append_singleton l x ih =>
    rw [aggregate_snoc, analyseWord_Syllables, analyseWord_WordCount, weightedSum_increment, ih]

theorem aggregate_occurrenceSyllables (env : Env) (calls : List (List Char)) :
    occurrenceSyllables (aggregate env calls).WordList = (aggregate env calls).Syllables := by
  induction calls using List.reverseRecOn with
  | nil => rfl
  | append_singleton l x ih =>
    rw [aggregate_snoc, analyseWord_Syllables, analyseWord_WordList, ← ih]
    have hset := fun v =>
      GoMap.sum_map_set (fun (_ : List Char) (e : Word) =>
        e.Occurrences * e.Syllables.MostLikelySyllableCount) (aggregate env l).WordList x v
    have hget := aggregate_wordList_get? env l x
    unfold occurrenceSyllables
    cases hg : (aggregate env l).WordList.get? x with
    | some e =>
      have he : e.Syllables = analyseSyllables env x := by
        rw [hg] at hget
        by_cases hmem : x ∈ l
        · rw [if_pos hmem] at hget
          have := Option.some.inj hget
          rw [this]
        · rw [if_neg hmem] at hget
          exact absurd hget (by simp)
      have := hset { e with Occurrences := e.Occurrences + 1 }
      simp only [hg] at this ⊢
      rw [this, he]
      ring
    | none =>
      have := hset { Word := x, Occurrences := 1, Syllables := analyseSyllables env x }
      simp only [hg] at this ⊢
      rw [this]
      ring

/-! ## The result of `Analyse` is the aggregate of its word events -/

theorem withCounters_withCounters (a b c : Results) :
    withCounters (withCounters a b) c = withCounters a c := rfl

theorem classify_res (env : Env) (s : Scan) (c : Char) :
    (classify env s c).res = withCounters s.res (classify env s c).res ∧
      (classify env s c).calls = s.calls := by
  unfold classify
  split
  · exact ⟨rfl, rfl⟩
  · split
    · exact ⟨rfl, rfl⟩
    · split
      · split <;> exact ⟨rfl, rfl⟩
      · exact ⟨rfl, rfl⟩

theorem traced_analyseWord (env : Env) (w : List Char) (r : Results) (calls : List (List Char))
    (h : r = withCounters (aggregate env calls) r) :
    analyseWord env w r =
      withCounters (aggregate env (calls ++ [w])) (analyseWord env w r) := by
  obtain ⟨h1, h2, h3, h4⟩ := analyseWord_counters env w r
  have hc : withCounters (aggregate env (calls ++ [w])) (analyseWord env w r) =
      withCounters (aggregate env (calls ++ [w])) r := by
    simp only [withCounters, h1, h2, h3, h4]
  rw [hc, aggregate_snoc, ← analyseWord_withCounters, ← h]

theorem traced_scanStep (env : Env) (s : Scan) (c : Char)
    (h : s.res = withCounters (aggregate env s.calls) s.res) :
    (scanStep env s c).res =
      withCounters (aggregate env (scanStep env s c).calls) (scanStep env s c).res := by
  obtain ⟨h1, h2⟩ := classify_res env s c
  have h3 : (classify env s c).res =
      withCounters (aggregate env (classify env s c).calls) (classify env s c).res := by
    rw [h2]
    calc (classify env s c).res = withCounters s.res (classify env s c).res := h1
      _ = withCounters (withCounters (aggregate env s.calls) s.res) (classify env s c).res := by
        rw [← h]
      _ = _ := rfl
  unfold scanStep flush
  split
  · exact traced_analyseWord env _ _ _ h3
  · exact h3

theorem traced_foldl (env : Env) (runes : List Char) (s : Scan)
    (h : s.res = withCounters (aggregate env s.calls) s.res) :
    (runes.foldl (scanStep env) s).res =
      withCounters (aggregate env (runes.foldl (scanStep env) s).calls)
        (runes.foldl (scanStep env) s).res := by
  induction runes generalizing s with
  | nil => exact h
  | cons c cs ih => exact ih _ (traced_scanStep env s c h)

/-- The record that `Analyse` returns is the aggregate of the word events, with the four
counters of the tokenizer. -/
theorem scanAll_res (env : Env) (runes : List Char) :
    (scanAll env runes).res =
      withCounters (aggregate env (wordEvents env runes)) (scanAll env runes).res := by
  have h := traced_foldl env runes Scan.init rfl
  unfold wordEvents scanAll finish
  split
  · exact traced_analyseWord env _ _ _ h
  · exact h

theorem scanAll_fields (env : Env) (runes : List Char) :
    (scanAll env runes).res.CountTotalWords =
        (aggregate env (wordEvents env runes)).CountTotalWords ∧
      (scanAll env runes).res.CountUniqueWords =
        (aggregate env (wordEvents env runes)).CountUniqueWords ∧
      (scanAll env runes).res.Syllables = (aggregate env (wordEvents env runes)).Syllables ∧
      (scanAll env runes).res.WordCountPerSyllableCount =
        (aggregate env (wordEvents env runes)).WordCountPerSyllableCount ∧
      (scanAll env runes).res.UniqueWordCountPerSyllableCount =
        (aggregate env (wordEvents env runes)).UniqueWordCountPerSyllableCount ∧
      (scanAll env runes).res.WordList = (aggregate env (wordEvents env runes)).WordList := by
  have h := scanAll_res env runes
  refine ⟨?_, ?_, ?_, ?_, ?_, ?_⟩
  · exact (congrArg Results.CountTotalWords h).trans rfl
  · exact (congrArg Results.CountUniqueWords h).trans rfl
  · exact (congrArg Results.Syllables h).trans rfl
  · exact (congrArg Results.WordCountPerSyllableCount h).trans rfl
  · exact (congrArg Results.UniqueWordCountPerSyllableCount h).trans rfl
  · exact (congrArg Results.WordList h).trans rfl

/-! ## The letters of the word events -/

theorem lettered_scanStep (env : Env) (s : Scan) (c : Char)
    (hw : ∀ x ∈ s.word, env.isLetter x = true)
    (hc : ∀ w ∈ s.calls, w ≠ [] ∧ ∀ x ∈ w, env.isLetter x = true) :
    (∀ x ∈ (scanStep env s c).word, env.isLetter x = true) ∧
      ∀ w ∈ (scanStep env s c).calls, w ≠ [] ∧ ∀ x ∈ w, env.isLetter x = true := by
  have h1 : (∀ x ∈ (classify env s c).word, env.isLetter x = true) ∧
      (classify env s c).calls = s.calls := by
    unfold classify
    split
    · rename_i hl
      refine ⟨?_, rfl⟩
      intro x hx
      simp only [List.mem_append, List.mem_singleton] at hx
      rcases hx with hx | rfl
      · exact hw x hx
      · exact hl
    · split
      · exact ⟨hw, rfl⟩
      · split
        · exact ⟨hw, rfl⟩
        · exact ⟨hw, rfl⟩
  obtain ⟨h2, h3⟩ := h1
  unfold scanStep flush
  split
  · rename_i hcond
    refine ⟨by intro x hx; simp at hx, ?_⟩
    intro w hmem
    simp only [List.mem_append, List.mem_singleton] at hmem
    rcases hmem with hmem | rfl
    · exact hc w (h3 ▸ hmem)
    · exact ⟨hcond.2, h2⟩
  · exact ⟨h2, fun w hmem => hc w (h3 ▸ hmem)⟩

theorem lettered_foldl (env : Env) (runes : List Char) (s : Scan)
    (hw : ∀ x ∈ s.word, env.isLetter x = true)
    (hc : ∀ w ∈ s.calls, w ≠ [] ∧ ∀ x ∈ w, env.isLetter x = true) :
    (∀ x ∈ (runes.foldl (scanStep env) s).word, env.isLetter x = true) ∧
      ∀ w ∈ (runes.foldl (scanStep env) s).calls, w ≠ [] ∧ ∀ x ∈ w, env.isLetter x = true := by
  induction runes generalizing s with
  | nil => exact ⟨hw, hc⟩
  | cons c cs ih =>
    obtain ⟨h1, h2⟩ := lettered_scanStep env s c hw hc
    exact ih _ h1 h2

theorem wordEvents_lettered (env : Env) (runes : List Char) :
    ∀ w ∈ wordEvents env runes, w ≠ [] ∧ ∀ x ∈ w, env.isLetter x = true := by
  obtain ⟨h1, h2⟩ := lettered_foldl env runes Scan.init
    (by intro x hx; simp [Scan.init] at hx) (by intro w hw; simp [Scan.init] at hw)
  unfold wordEvents scanAll finish
  split
  · rename_i hne
    intro w hmem
    simp only [List.mem_append, List.mem_singleton] at hmem
    rcases hmem with hmem | rfl
    · exact h2 w hmem
    · exact ⟨hne, h1⟩
  · exact h2

/-! ## The counters of the tokenizer -/

theorem flush_counters (env : Env) (s : Scan) :
    (flush env s).res.Letters = s.res.Letters ∧ (flush env s).res.Spaces = s.res.Spaces ∧
      (flush env s).res.Punctuation = s.res.Punctuation ∧
      (flush env s).res.Sentences = s.res.Sentences := by
  unfold flush
  split
  · exact analyseWord_counters env s.word s.res
  · exact ⟨rfl, rfl, rfl, rfl⟩

theorem classify_counters (env : Env) (s : Scan) (c : Char) :
    (classify env s c).res.Letters =
        s.res.Letters + (if runeClass env c = .letter then 1 else 0) ∧
      (classify env s c).res.Spaces =
        s.res.Spaces + (if runeClass env c = .space then 1 else 0) ∧
      (classify env s c).res.Punctuation =
        s.res.Punctuation + (if runeClass env c = .punctuation then 1 else 0) ∧
      (classify env s c).res.Sentences =
        s.res.Sentences +
          (if runeClass env c = .punctuation ∧ isSentenceEnd c = true then 1 else 0) := by
  unfold classify runeClass isSentenceEnd
  by_cases h1 : env.isLetter c = true
  · simp [h1]
  · by_cases h2 : env.isSpace c = true
    · simp [h1, h2]
    · by_cases h3 : env.isPunct c = true
      · by_cases h4 : c = '.' ∨ c = '!' ∨ c = '?'
        · simp [h1, h2, h3, h4]
        · simp [h1, h2, h3, h4]
      · simp [h1, h2, h3]

theorem foldl_scanStep_counters (env : Env) (runes : List Char) (s : Scan) :
    (runes.foldl (scanStep env) s).res.Letters =
        s.res.Letters + (runes.countP fun c => decide (runeClass env c = .letter) : Nat) ∧
      (runes.foldl (scanStep env) s).res.Spaces =
        s.res.Spaces + (runes.countP fun c => decide (runeClass env c = .space) : Nat) ∧
      (runes.foldl (scanStep env) s).res.Punctuation =
        s.res.Punctuation +
          (runes.countP fun c => decide (runeClass env c = .punctuation) : Nat) ∧
      (runes.foldl (scanStep env) s).res.Sentences =
        s.res.Sentences +
          (runes.countP fun c =>
            decide (runeClass env c = .punctuation ∧ isSentenceEnd c = true) : Nat) := by
  induction runes generalizing s with
  | nil => simp
  | cons c cs ih =>
    obtain ⟨f1, f2, f3, f4⟩ := flush_counters env (classify env s c)
    obtain ⟨c1, c2, c3, c4⟩ := classify_counters env s c
    obtain ⟨i1, i2, i3, i4⟩ := ih (scanStep env s c)
    simp only [List.foldl_cons, List.countP_cons]
    unfold scanStep at i1 i2 i3 i4 ⊢
    rw [i1, i2, i3, i4, f1, f2, f3, f4, c1, c2, c3, c4]
    refine ⟨?_, ?_, ?_, ?_⟩ <;> split <;> simp_all <;> omega

/-- The four counters of the tokenizer after `Analyse`, as numbers of runes. -/
theorem scanAll_counters (env : Env) (runes : List Char) :
    (scanAll env runes).res.Letters =
        (runes.countP fun c => decide (runeClass env c = .letter) : Nat) ∧
      (scanAll env runes).res.Spaces =
        (runes.countP fun c => decide (runeClass env c = .space) : Nat) ∧
      (scanAll env runes).res.Punctuation =
        (runes.countP fun c => decide (runeClass env c = .punctuation) : Nat) ∧
      (scanAll env runes).res.Sentences =
        (runes.countP fun c =>
          decide (runeClass env c = .punctuation ∧ isSentenceEnd c = true) : Nat) := by
  obtain ⟨i1, i2, i3, i4⟩ := foldl_scanStep_counters env runes Scan.init
  have hf : ∀ s : Scan, (finish env s).res.Letters = s.res.Letters ∧
      (finish env s).res.Spaces = s.res.Spaces ∧
      (finish env s).res.Punctuation = s.res.Punctuation ∧
      (finish env s).res.Sentences = s.res.Sentences := by
    intro s
    unfold finish
    split
    · exact analyseWord_counters env s.word s.res
    · exact ⟨rfl, rfl, rfl, rfl⟩
  obtain ⟨f1, f2, f3, f4⟩ := hf (runes.foldl (scanStep env) Scan.init)
  unfold scanAll
  rw [f1, f2, f3, f4, i1, i2, i3, i4]
  simp [Scan.init, emptyResults]

/-! ## The stem that `pluralRegexp` captures -/

/-- The class `[a-zA-Z]` of `pluralRegexp`. -/
theorem pluralRegexp_eq :
    pluralRegexp =
      .seq (.group (.rep (.cls false [('a', 'z'), ('A', 'Z')]) 1 none false))
        (.group (.alt (.seq (.atom (.lit 's')) .wordB) .wordB)) := rfl

theorem asciiLetter_test {c : Char} (h : isAsciiLetter c = true) :
    (Atom.cls false [('a', 'z'), ('A', 'Z')]).test c = true := by
  simpa [Atom.test, isAsciiLetter] using h

theorem asciiLetter_isWordRune {c : Char} (h : isAsciiLetter c = true) :
    isWordRune c = true := by
  simp only [isAsciiLetter, Bool.or_eq_true, Bool.and_eq_true, decide_eq_true_eq] at h
  simp only [isWordRune, Bool.or_eq_true, Bool.and_eq_true, decide_eq_true_eq]
  rcases h with h | h
  · exact Or.inl (Or.inr h)
  · exact Or.inl (Or.inl (Or.inr h))

/-- The second group of `pluralRegexp` after an ASCII letter, before ASCII letters. -/
theorem group2_run (p : Char) (l : List Char) (caps : List (List Char))
    (hp : isAsciiLetter p = true) (hl : ∀ c ∈ l, isAsciiLetter c = true) :
    (Re.group (.alt (.seq (.atom (.lit 's')) .wordB) .wordB)).run ⟨some p, l, caps⟩ =
      match l with
      | [] => [⟨some p, [], caps ++ [[]]⟩]
      | [y] => if y = 's' then [⟨some 's', [], caps ++ [['s']]⟩] else []
      | _ :: _ :: _ => [] := by
  have hwp := asciiLetter_isWordRune hp
  have hws : isWordRune 's' = true := by decide
  match l, hl with
  | [], _ => simp [Re.run, wordBefore, wordAfter, hwp, Atom.test]
  | [y], hl =>
    have hwy := asciiLetter_isWordRune (hl y (by simp))
    by_cases hy : y = 's'
    · subst hy
      simp [Re.run, wordBefore, wordAfter, hwp, hws, Atom.test]
    · simp [Re.run, wordBefore, wordAfter, hwp, hwy, Atom.test, hy]
  | y :: z :: zs, hl =>
    have hwy := asciiLetter_isWordRune (hl y (by simp))
    have hwz := asciiLetter_isWordRune (hl z (by simp))
    by_cases hy : y = 's'
    · subst hy
      simp [Re.run, wordBefore, wordAfter, hwp, hwz, hws, Atom.test]
    · simp [Re.run, wordBefore, wordAfter, hwp, hwy, Atom.test, hy]

/-- The lazy run of `[a-zA-Z]` over ASCII letters followed by the second group: the first
match ends the text and captures `stopSuffix l`. -/
theorem lazy_then_group2 (g : List Char → List Char) (l : List Char) :
    ∀ p : Char, isAsciiLetter p = true → (∀ c ∈ l, isAsciiLetter c = true) →
      ∃ prev tl,
        ((repRun (.cls false [('a', 'z'), ('A', 'Z')]) false 0 none (some p) l []).map
            fun c' => (⟨c'.prev, c'.rest, c'.caps ++ [g c'.rest]⟩ : Cursor)).flatMap
          (Re.group (.alt (.seq (.atom (.lit 's')) .wordB) .wordB)).run =
        ⟨prev, [], [g (stopSuffix l), stopSuffix l]⟩ :: tl := by
  induction l with
  | nil =>
    intro p hp hl
    refine ⟨some p, [], ?_⟩
    simp [repRun, group2_run p [] _ hp hl, stopSuffix]
  | cons y ys ih =>
    intro p hp hl
    have hy : isAsciiLetter y = true := hl y (by simp)
    have hys : ∀ c ∈ ys, isAsciiLetter c = true := fun c hc => hl c (by simp [hc])
    have hrep : repRun (.cls false [('a', 'z'), ('A', 'Z')]) false 0 none (some p) (y :: ys) [] =
        ⟨some p, y :: ys, []⟩ ::
          repRun (.cls false [('a', 'z'), ('A', 'Z')]) false 0 none (some y) ys [] := by
      rw [repRun]
      simp [asciiLetter_test hy]
    rw [hrep, List.map_cons, List.flatMap_cons, group2_run p (y :: ys) _ hp hl]
    obtain ⟨prev, tl, htl⟩ := ih y hy hys
    match ys, hys, htl with
    | [], _, htl =>
      by_cases hs : y = 's'
      · subst hs
        exact ⟨some 's', _, by simp [stopSuffix]; rfl⟩
      · refine ⟨prev, tl, ?_⟩
        simp only [hs, if_false, List.nil_append, stopSuffix]
        simpa [stopSuffix] using htl
    | z :: zs, _, htl =>
      refine ⟨prev, tl, ?_⟩
      simpa [stopSuffix] using htl

theorem stopSuffix_eq (l : List Char) :
    stopSuffix l = if l.getLast? = some 's' then ['s'] else [] := by
  match l with
  | [] => simp [stopSuffix]
  | [y] => simp [stopSuffix]
  | y :: z :: zs =>
    rw [stopSuffix, stopSuffix_eq (z :: zs)]
    simp [List.getLast?_cons_cons]

/-- On a non-empty word of ASCII letters `pluralRegexp` matches the whole word and its
first group captures the specification's stem. -/
theorem pluralRegexp_submatch (w : List Char) (hne : w ≠ [])
    (hw : ∀ c ∈ w, isAsciiLetter c = true) :
    pluralRegexp.FindStringSubmatch w = some [w, pluralStem w, stopSuffix w.tail] := by
  match w, hne, hw with
  | x :: xs, _, hw =>
    have hx : isAsciiLetter x = true := hw x (by simp)
    have hxs : ∀ c ∈ xs, isAsciiLetter c = true := fun c hc => hw c (by simp [hc])
    obtain ⟨prev, tl, h⟩ := lazy_then_group2
      (fun rest => (x :: xs).take ((x :: xs).length - rest.length)) xs x hx hxs
    have hrun : pluralRegexp.run ⟨none, x :: xs, []⟩ =
        ⟨prev, [], [(x :: xs).take ((x :: xs).length - (stopSuffix xs).length),
          stopSuffix xs]⟩ :: tl := by
      rw [← h, pluralRegexp_eq]
      simp only [Re.run]
      rw [repRun]
      simp [asciiLetter_test hx]
    have hstem : (x :: xs).take ((x :: xs).length - (stopSuffix xs).length) =
        pluralStem (x :: xs) := by
      rw [stopSuffix_eq, pluralStem]
      match xs with
      | [] => simp
      | z :: zs =>
        have hg : (x :: z :: zs).getLast? = (z :: zs).getLast? := List.getLast?_cons_cons
        rw [hg]
        by_cases hlast : (z :: zs).getLast? = some 's'
        · simp [hlast, List.dropLast_eq_take]
        · simp [hlast]
    simp only [Re.FindStringSubmatch, Re.findFrom, hrun, hstem]
    simp

/-- On a non-empty word of ASCII letters the last block of `analyseWord` decides as the
specification says. -/
theorem isDifficult_eq_spec (env : Env) (w : List Char) (hne : w ≠ [])
    (hw : ∀ c ∈ w, isAsciiLetter c = true) : isDifficult env w = isDifficultSpec env w := by
  unfold isDifficult isDifficultSpec
  rw [pluralRegexp_submatch w hne hw]
  cases env.DaleChallWordList w <;> simp

/-! ## The difficult words and the words with at least `n` syllables -/

theorem aggregate_difficultWords (env : Env) (calls : List (List Char)) :
    (aggregate env calls).DifficultWords = (calls.countP (isDifficult env) : Nat) := by
  induction calls using List.reverseRecOn with
  | nil => rfl
  | append_singleton l x ih =>
    rw [aggregate_snoc, analyseWord_DifficultWords, ih, List.countP_append]
    cases h : isDifficult env x <;> simp [h]

theorem scanAll_difficultWords (env : Env) (runes : List Char) :
    (scanAll env runes).res.DifficultWords =
      (aggregate env (wordEvents env runes)).DifficultWords :=
  (congrArg Results.DifficultWords (scanAll_res env runes)).trans rfl

theorem wordsWithAtLeastLoop_eq (n : Int) (m : List (Int × Int)) (total : Int) :
    wordsWithAtLeastLoop n m total =
      total + (m.map fun p => if p.1 ≥ n then p.2 else 0).sum := by
  induction m generalizing total with
  | nil => simp [wordsWithAtLeastLoop]
  | cons p t ih =>
    obtain ⟨k, v⟩ := p
    unfold wordsWithAtLeastLoop
    split
    · rename_i h
      rw [ih]
      simp only [List.map_cons, List.sum_cons, h, if_true]
      ring
    · rename_i h
      rw [ih]
      simp only [List.map_cons, List.sum_cons, h, if_false]
      ring

/-- The total of the loop does not depend on the order in which the entries are visited. -/
theorem wordsWithAtLeastLoop_perm (n : Int) {m m' : List (Int × Int)} (h : m.Perm m')
    (total : Int) : wordsWithAtLeastLoop n m total = wordsWithAtLeastLoop n m' total := by
  rw [wordsWithAtLeastLoop_eq, wordsWithAtLeastLoop_eq]
  exact congrArg _ ((h.map _).sum_eq)

theorem atLeast_increment (n : Int) (m : GoMap Int Int) (k : Int) :
    ((increment m k).map fun p => if p.1 ≥ n then p.2 else 0).sum =
      (m.map fun p => if p.1 ≥ n then p.2 else 0).sum + (if k ≥ n then 1 else 0) := by
  have h := fun v => GoMap.sum_map_set (fun a x => if a ≥ n then x else 0) m k v
  simp only [increment] at h ⊢
  cases hg : m.get? k with
  | none =>
    have := h 1
    simp only [hg] at this ⊢
    rw [this]
    ring
  | some v0 =>
    have := h (v0 + 1)
    simp only [hg] at this ⊢
    rw [this]
    split <;> ring

theorem aggregate_atLeast (env : Env) (calls : List (List Char)) (n : Int) :
    ((aggregate env calls).WordCountPerSyllableCount.map
        fun p => if p.1 ≥ n then p.2 else 0).sum =
      (calls.countP
        fun w => decide ((analyseSyllables env w).MostLikelySyllableCount ≥ n) : Nat) := by
  induction calls using List.reverseRecOn with
  | nil => rfl
  | append_singleton l x ih =>
    rw [aggregate_snoc, analyseWord_WordCount, atLeast_increment, ih, List.countP_append]
    by_cases h : (analyseSyllables env x).MostLikelySyllableCount ≥ n <;> simp [h]

/-- A non-empty sequence of Letter runes is one word event. -/
theorem wordEvents_letters (env : Env) (runes : List Char) (hne : runes ≠ [])
    (hl : ∀ x ∈ runes, env.isLetter x = true) : wordEvents env runes = [runes] := by
  have hd : dropOther env runes = runes := by
    unfold dropOther
    rw [List.filter_eq_self]
    intro x hx
    simp [runeClass, hl x hx]
  have hs : runes.splitOnP (isDelimiter env) = [runes] :=
    List.splitOnP_eq_single _ _ (by
      intro x hx
      simp [isDelimiter_of_isLetter env (hl x hx)])
  rw [wordEvents_eq_letterRuns, letterRuns, hd, hs]
  simp [hne]

/-- A rune of class Other inside a run of Letter runes does not cut it. -/
theorem wordEvents_other_inside (env : Env) (u v : List Char) (o : Char)
    (hu : ∀ x ∈ u, env.isLetter x = true) (hv : ∀ x ∈ v, env.isLetter x = true)
    (ho : runeClass env o = .other) (hne : u ++ v ≠ []) :
    wordEvents env (u ++ o :: v) = [u ++ v] := by
  have hall : ∀ x ∈ u ++ v, env.isLetter x = true := by
    intro x hx
    rcases List.mem_append.1 hx with h | h
    · exact hu x h
    · exact hv x h
  have hkeep : ∀ l : List Char, (∀ x ∈ l, env.isLetter x = true) → dropOther env l = l := by
    intro l hl
    unfold dropOther
    rw [List.filter_eq_self]
    intro x hx
    simp [runeClass, hl x hx]
  have hd : dropOther env (u ++ o :: v) = dropOther env (u ++ v) := by
    unfold dropOther
    simp [List.filter_append, ho]
  have h1 : wordEvents env (u ++ o :: v) = wordEvents env (dropOther env (u ++ o :: v)) := by
    unfold wordEvents scanAll
    rw [foldl_scanStep_dropOther env (u ++ o :: v) Scan.init init_ready]
  rw [h1, hd, hkeep _ hall]
  exact wordEvents_letters env _ hne hall

/-- When the three Unicode predicates exclude one another, as Go's do, the class of a rune
is the predicate that holds of it. -/
theorem runeClass_of_disjoint (env : Env)
    (h1 : ∀ c, env.isLetter c = true → env.isSpace c = false ∧ env.isPunct c = false)
    (h2 : ∀ c, env.isSpace c = true → env.isPunct c = false) (c : Char) :
    (runeClass env c = .letter ↔ env.isLetter c = true) ∧
      (runeClass env c = .space ↔ env.isSpace c = true) ∧
      (runeClass env c = .punctuation ↔ env.isPunct c = true) := by
  unfold runeClass
  cases hl : env.isLetter c
  · cases hs : env.isSpace c
    · cases hp : env.isPunct c <;> simp
    · have := h2 c hs
      simp [this]
  · obtain ⟨a, b⟩ := h1 c hl
    simp [a, b]

/-! ## The heuristic estimator -/

/-- The function `SyllableCount` is the look-up in `ProblemWords` on the folded word,
then the rules. -/
theorem SyllableCount_eq (env : Env) (word : List Char) :
    SyllableCount env word =
      match ProblemWords.get? (word.map env.toLower) with
      | some sCount => sCount
      | none => ruleCount (word.map env.toLower) := rfl

/-- The function `SyllableCount` takes nothing from the environment but `toLower`. -/
theorem SyllableCount_asciiEnv (alt : List Char → Int) (cmu : List Char → Option Int)
    (dale : List Char → Bool) (word : List Char) :
    SyllableCount (asciiEnv alt cmu dale) word =
      SyllableCount (asciiEnv (fun _ => 1) (fun _ => none) (fun _ => false)) word := rfl

/-! ## The letters of a pass and the lengths of its word events -/

theorem flush_letters (env : Env) (s : Scan) :
    ((flush env s).calls.map fun w => (w.length : Int)).sum + ((flush env s).word.length : Int) =
      (s.calls.map fun w => (w.length : Int)).sum + (s.word.length : Int) := by
  unfold flush
  split
  · simp
  · rfl

theorem classify_letters (env : Env) (s : Scan) (c : Char) :
    (classify env s c).res.Letters - ((classify env s c).word.length : Int) =
        s.res.Letters - (s.word.length : Int) ∧
      (classify env s c).calls = s.calls := by
  unfold classify
  split
  · refine ⟨?_, rfl⟩
    simp only [List.length_append, List.length_singleton]
    push_cast
    ring
  · split
    · exact ⟨rfl, rfl⟩
    · split
      · split <;> exact ⟨rfl, rfl⟩
      · exact ⟨rfl, rfl⟩

/-- Every counted letter is in the buffer or in a word event. -/
theorem scanStep_letters (env : Env) (s : Scan) (c : Char)
    (h : s.res.Letters =
      (s.calls.map fun w => (w.length : Int)).sum + (s.word.length : Int)) :
    (scanStep env s c).res.Letters =
      ((scanStep env s c).calls.map fun w => (w.length : Int)).sum +
        ((scanStep env s c).word.length : Int) := by
  obtain ⟨h1, h2⟩ := classify_letters env s c
  have h3 := flush_letters env (classify env s c)
  have h4 := (flush_counters env (classify env s c)).1
  unfold scanStep
  rw [h3, h4, h2]
  omega

theorem foldl_scanStep_letters (env : Env) (runes : List Char) (s : Scan)
    (h : s.res.Letters =
      (s.calls.map fun w => (w.length : Int)).sum + (s.word.length : Int)) :
    (runes.foldl (scanStep env) s).res.Letters =
      ((runes.foldl (scanStep env) s).calls.map fun w => (w.length : Int)).sum +
        ((runes.foldl (scanStep env) s).word.length : Int) := by
  induction runes generalizing s with
  | nil => exact h
  | cons c cs ih => exact ih _ (scanStep_letters env s c h)

/-- After `Analyse`, `Letters` is the sum of the lengths of the word events. -/
theorem scanAll_letters (env : Env) (runes : List Char) :
    (scanAll env runes).res.Letters =
      ((wordEvents env runes).map fun w => (w.length : Int)).sum := by
  have h := foldl_scanStep_letters env runes Scan.init rfl
  unfold wordEvents scanAll finish
  split
  · rw [(analyseWord_counters env _ _).1, h]
    simp
  · rename_i hw
    have hw' : (runes.foldl (scanStep env) Scan.init).word = [] := by
      by_contra hne
      exact hw hne
    rw [h, hw']
    simp

theorem aggregate_occurrenceLetters (env : Env) (calls : List (List Char)) :
    occurrenceLetters (aggregate env calls).WordList =
      (calls.map fun w => (w.length : Int)).sum := by
  induction calls using List.reverseRecOn with
  | nil => rfl
  | append_singleton l x ih =>
    rw [aggregate_snoc, analyseWord_WordList, List.map_append, List.sum_append, ← ih]
    have hset := fun v =>
      GoMap.sum_map_set (fun (k : List Char) (e : Word) => e.Occurrences * (k.length : Int))
        (aggregate env l).WordList x v
    unfold occurrenceLetters
    cases hg : (aggregate env l).WordList.get? x with
    | some e =>
      have := hset { e with Occurrences := e.Occurrences + 1 }
      simp only [hg] at this ⊢
      rw [this]
      simp only [List.map_cons, List.map_nil, List.sum_cons, List.sum_nil]
      ring
    | none =>
      have := hset { Word := x, Occurrences := 1, Syllables := analyseSyllables env x }
      simp only [hg] at this ⊢
      rw [this]
      simp only [List.map_cons, List.map_nil, List.sum_cons, List.sum_nil]
      ring

/-- The keys of the word list are the word events. -/
theorem aggregate_keys_iff (env : Env) (calls : List (List Char)) (w : List Char) :
    w ∈ (aggregate env calls).WordList.keys ↔ w ∈ calls := by
  have hget := aggregate_wordList_get? env calls w
  have hnone := GoMap.get?_eq_none_iff (aggregate env calls).WordList w
  rw [hget] at hnone
  by_cases hm : w ∈ calls
  · simp only [hm, if_true, iff_true]
    by_contra hk
    have := hnone.2 hk
    simp [hm] at this
  · simp only [hm, if_false, iff_false]
    exact hnone.1 (by simp [hm])

/-! ## The arithmetic without rounding -/

theorem exactArith_div_one (x : ExactFloat) : exactArith.div x (exactArith.lit 1) = x := by
  cases x <;> simp [exactArith, exactFloat, ExactFloat.div]

theorem exactArith_beq_zero (i : Int) :
    exactArith.beq (exactArith.ofInt i) (exactArith.lit 0) = true ↔ i = 0 := by
  simp [exactArith, exactFloat, ExactFloat.beq]

theorem exactArith_lit_one : exactArith.lit 1 = exactArith.ofInt 1 := by
  simp [exactArith, exactFloat]

/-- After `Analyse`, `Letters` is the sum of the lengths of the word events. -/
theorem Analyse_letters (env : Env) (runes : List Char) (err : Option String) :
    (Analyse env ⟨runes, err⟩).1.Letters =
      ((wordEvents env runes).map fun w => (w.length : Int)).sum :=
  scanAll_letters env runes

/-- Letter runes interleaved with any number of Other runes are one word event, made of
the letters alone. -/
theorem wordEvents_letters_among_others (env : Env) (runes : List Char)
    (hcls : ∀ x ∈ runes, runeClass env x = .letter ∨ runeClass env x = .other)
    (hne : ∃ x ∈ runes, env.isLetter x = true) :
    wordEvents env runes = [runes.filter env.isLetter] := by
  have hd : dropOther env runes = runes.filter env.isLetter := by
    unfold dropOther
    apply List.filter_congr
    intro x hx
    rcases hcls x hx with h | h
    · have hl : env.isLetter x = true := by
        by_contra hn
        simp [runeClass, hn] at h
        split_ifs at h
      simp [h, hl]
    · have hl : env.isLetter x = false := by
        cases hx' : env.isLetter x with
        | false => rfl
        | true => simp [runeClass, hx'] at h
      simp [h, hl]
  have h1 : wordEvents env runes = wordEvents env (dropOther env runes) := by
    unfold wordEvents scanAll
    rw [foldl_scanStep_dropOther env runes Scan.init init_ready]
  rw [h1, hd]
  apply wordEvents_letters
  · obtain ⟨x, hx, hl⟩ := hne
    intro hnil
    have : x ∈ runes.filter env.isLetter := List.mem_filter.2 ⟨hx, hl⟩
    rw [hnil] at this
    simp at this
  · intro x hx
    exact (List.mem_filter.1 hx).2

/-! ## The rounding of binary64 -/

theorem roundHalfEven_sub_le {s : ℚ} (hs : 0 ≤ s) : |(roundHalfEven s : ℚ) - s| ≤ 1 / 2 := by
  have h1 : ((⌊s⌋₊ : ℕ) : ℚ) ≤ s := Nat.floor_le hs
  have h2 : s < ((⌊s⌋₊ : ℕ) : ℚ) + 1 := Nat.lt_floor_add_one s
  unfold roundHalfEven
  simp only []
  rw [abs_le]
  split_ifs with c1 c2 c3 <;> push_cast <;> constructor <;> linarith

theorem roundHalfEven_natCast (n : ℕ) : roundHalfEven (n : ℚ) = n := by
  unfold roundHalfEven
  simp only [Nat.floor_natCast, sub_self]
  norm_num

theorem le_roundHalfEven {s : ℚ} (hs : 0 ≤ s) {N : ℕ} (h : (N : ℚ) ≤ s) :
    N ≤ roundHalfEven s := by
  have hr := abs_le.1 (roundHalfEven_sub_le hs)
  by_contra hlt
  have h1 : roundHalfEven s + 1 ≤ N := by omega
  have h2 : (roundHalfEven s : ℚ) + 1 ≤ (N : ℚ) := by exact_mod_cast h1
  linarith [hr.1]

theorem roundHalfEven_le {s : ℚ} (hs : 0 ≤ s) {N : ℕ} (h : s ≤ (N : ℚ)) :
    roundHalfEven s ≤ N := by
  have hr := abs_le.1 (roundHalfEven_sub_le hs)
  by_contra hlt
  have h1 : N + 1 ≤ roundHalfEven s := by omega
  have h2 : (N : ℚ) + 1 ≤ (roundHalfEven s : ℚ) := by exact_mod_cast h1
  linarith [hr.2]

/-- The position of the leading bit of a positive rational. -/
theorem log_two_bounds {a : ℚ} (ha : 0 < a) :
    (2 : ℚ) ^ Int.log 2 a ≤ a ∧ a < (2 : ℚ) ^ (Int.log 2 a + 1) := by
  have h1 := Int.zpow_log_le_self (b := 2) (by norm_num) ha
  have h2 := Int.lt_zpow_succ_log_self (b := 2) (by norm_num) a
  simpa using And.intro h1 h2

theorem log_two_eq {a : ℚ} (ha : 0 < a) {k : ℤ} (h1 : (2 : ℚ) ^ k ≤ a)
    (h2 : a < (2 : ℚ) ^ (k + 1)) : Int.log 2 a = k := by
  have hb : 1 < 2 := by norm_num
  have e1 : k ≤ Int.log 2 a := by
    rw [← Int.zpow_le_iff_le_log hb ha]
    simpa using h1
  have e2 : Int.log 2 a < k + 1 := by
    rw [← Int.lt_zpow_iff_log_lt hb ha]
    simpa using h2
  omega

/-- The rounding of a rational in the range of the normal numbers: a number with the same
sign and the same leading bit or the next power of two, within half a unit of the last
place. -/
theorem round64_normal {q : ℚ} (hq : q ≠ 0) (hlo : -1022 ≤ Int.log 2 |q|)
    (hhi : Int.log 2 |q| ≤ 1022) :
    ∃ v : ℚ, round64 q = .finite v ∧ (2 : ℚ) ^ Int.log 2 |q| ≤ |v| ∧
      |v| ≤ (2 : ℚ) ^ (Int.log 2 |q| + 1) ∧ |v - q| ≤ (2 : ℚ) ^ (Int.log 2 |q| - 53) ∧
      (0 < q → 0 < v) ∧ (q < 0 → v < 0) := by
  have ha : 0 < |q| := abs_pos.2 hq
  obtain ⟨h1, h2⟩ := log_two_bounds ha
  set k := Int.log 2 |q| with hk
  have he : lastPlace |q| = k - 52 := by
    unfold lastPlace
    rw [← hk]
    omega
  have h2ne : (2 : ℚ) ≠ 0 := by norm_num
  have hpe : (0 : ℚ) < 2 ^ (k - 52) := zpow_pos (by norm_num) _
  have hs0 : 0 ≤ |q| / 2 ^ (k - 52) := le_of_lt (div_pos ha hpe)
  have hk1 : (2 : ℚ) ^ (52 : ℤ) * 2 ^ (k - 52) = 2 ^ k := by
    rw [← zpow_add₀ h2ne]
    congr 1
    omega
  have hk2 : (2 : ℚ) ^ (53 : ℤ) * 2 ^ (k - 52) = 2 ^ (k + 1) := by
    rw [← zpow_add₀ h2ne]
    congr 1
    omega
  have hk3 : (1 / 2 : ℚ) * 2 ^ (k - 52) = 2 ^ (k - 53) := by
    have : (1 / 2 : ℚ) = 2 ^ (-1 : ℤ) := by norm_num
    rw [this, ← zpow_add₀ h2ne]
    congr 1
    omega
  have hslo : (((2 ^ 52 : ℕ)) : ℚ) ≤ |q| / 2 ^ (k - 52) := by
    rw [le_div_iff₀ hpe]
    have : (((2 ^ 52 : ℕ)) : ℚ) = (2 : ℚ) ^ (52 : ℤ) := by norm_num
    rw [this, hk1]
    exact h1
  have hshi : |q| / 2 ^ (k - 52) ≤ (((2 ^ 53 : ℕ)) : ℚ) := by
    rw [div_le_iff₀ hpe]
    have : (((2 ^ 53 : ℕ)) : ℚ) = (2 : ℚ) ^ (53 : ℤ) := by norm_num
    rw [this, hk2]
    exact le_of_lt h2
  have hmlo := le_roundHalfEven hs0 hslo
  have hmhi := roundHalfEven_le hs0 hshi
  have hmerr := roundHalfEven_sub_le hs0
  set m := roundHalfEven (|q| / 2 ^ (k - 52)) with hm
  have hmlo' : (2 : ℚ) ^ (52 : ℤ) ≤ (m : ℚ) := by
    have h : (((2 ^ 52 : ℕ)) : ℚ) ≤ (m : ℚ) := by exact_mod_cast hmlo
    have e : (2 : ℚ) ^ (52 : ℤ) = (((2 ^ 52 : ℕ)) : ℚ) := by norm_num
    rw [e]
    exact h
  have hmhi' : (m : ℚ) ≤ (2 : ℚ) ^ (53 : ℤ) := by
    have h : (m : ℚ) ≤ (((2 ^ 53 : ℕ)) : ℚ) := by exact_mod_cast hmhi
    have e : (2 : ℚ) ^ (53 : ℤ) = (((2 ^ 53 : ℕ)) : ℚ) := by norm_num
    rw [e]
    exact h
  have hvlo : (2 : ℚ) ^ k ≤ (m : ℚ) * 2 ^ (k - 52) := by
    rw [← hk1]
    exact mul_le_mul_of_nonneg_right hmlo' (le_of_lt hpe)
  have hvhi : (m : ℚ) * 2 ^ (k - 52) ≤ (2 : ℚ) ^ (k + 1) := by
    rw [← hk2]
    exact mul_le_mul_of_nonneg_right hmhi' (le_of_lt hpe)
  have hvpos : (0 : ℚ) < (m : ℚ) * 2 ^ (k - 52) := lt_of_lt_of_le (zpow_pos (by norm_num) _) hvlo
  have hverr : abs ((m : ℚ) * 2 ^ (k - 52) - abs q) ≤ (2 : ℚ) ^ (k - 53) := by
    have e : (m : ℚ) * 2 ^ (k - 52) - |q| = ((m : ℚ) - |q| / 2 ^ (k - 52)) * 2 ^ (k - 52) := by
      field_simp
    rw [e, abs_mul, abs_of_pos hpe, ← hk3]
    exact mul_le_mul_of_nonneg_right hmerr (le_of_lt hpe)
  have hnot : ¬(2 : ℚ) ^ (1024 : ℤ) ≤ (m : ℚ) * 2 ^ (k - 52) := by
    have : (2 : ℚ) ^ (k + 1) < 2 ^ (1024 : ℤ) :=
      zpow_lt_zpow_right₀ (by norm_num) (by omega)
    intro hc
    linarith
  have hround : round64 q =
      .finite (if 0 < q then (m : ℚ) * 2 ^ (k - 52) else -((m : ℚ) * 2 ^ (k - 52))) := by
    unfold round64
    rw [if_neg hq]
    simp only [he]
    rw [if_neg hnot]
  rcases lt_or_gt_of_ne hq with hneg | hpos
  · refine ⟨-((m : ℚ) * 2 ^ (k - 52)), ?_, ?_, ?_, ?_, ?_, ?_⟩
    · rw [hround, if_neg (not_lt.2 (le_of_lt hneg))]
    · rw [abs_neg, abs_of_pos hvpos]
      exact hvlo
    · rw [abs_neg, abs_of_pos hvpos]
      exact hvhi
    · have hq' : |q| = -q := abs_of_neg hneg
      rw [hq'] at hverr
      have : -((m : ℚ) * 2 ^ (k - 52)) - q = -((m : ℚ) * 2 ^ (k - 52) - -q) := by ring
      rw [this, abs_neg]
      exact hverr
    · intro h
      exact absurd h (not_lt.2 (le_of_lt hneg))
    · intro _
      linarith
  · refine ⟨(m : ℚ) * 2 ^ (k - 52), ?_, ?_, ?_, ?_, ?_, ?_⟩
    · rw [hround, if_pos hpos]
    · rw [abs_of_pos hvpos]
      exact hvlo
    · rw [abs_of_pos hvpos]
      exact hvhi
    · have hq' : |q| = q := abs_of_pos hpos
      rw [hq'] at hverr
      exact hverr
    · intro _
      exact hvpos
    · intro h
      exact absurd h (not_lt.2 (le_of_lt hpos))

theorem round64_zero : round64 0 = .finite 0 := by
  simp [round64]

/-- A rational whose quotient by its unit of the last place is a natural number, and that
is below `2^1024`, is a binary64 number: rounding leaves it as it is. -/
theorem round64_of_natural {q : ℚ} (hq : q ≠ 0) {t : ℕ}
    (ht : |q| / 2 ^ lastPlace |q| = (t : ℚ)) (hlt : |q| < (2 : ℚ) ^ (1024 : ℤ)) :
    round64 q = .finite q := by
  have hpe : (0 : ℚ) < 2 ^ lastPlace |q| := zpow_pos (by norm_num) _
  have hv : (t : ℚ) * 2 ^ lastPlace |q| = |q| := by
    rw [← ht]
    field_simp
  unfold round64
  rw [if_neg hq]
  simp only [ht, roundHalfEven_natCast, hv]
  rw [if_neg (not_le.2 hlt)]
  rcases lt_or_gt_of_ne hq with hneg | hpos
  · rw [if_neg (not_lt.2 (le_of_lt hneg)), abs_of_neg hneg, neg_neg]
  · rw [if_pos hpos, abs_of_pos hpos]

/-- The conversion of an `int` of magnitude at most `2^53` is exact. -/
theorem round64_intCast_of_le (i : ℤ) (h : |i| ≤ 2 ^ 53) : round64 (i : ℚ) = .finite (i : ℚ) := by
  by_cases hi : i = 0
  · subst hi
    simpa using round64_zero
  have hq : (i : ℚ) ≠ 0 := by exact_mod_cast hi
  have ha : 0 < |(i : ℚ)| := abs_pos.2 hq
  have hge : (1 : ℚ) ≤ |(i : ℚ)| := by
    have : (1 : ℤ) ≤ |i| := Int.one_le_abs hi
    exact_mod_cast this
  have hle : |(i : ℚ)| ≤ (2 : ℚ) ^ (53 : ℤ) := by
    have : ((|i| : ℤ) : ℚ) ≤ ((2 ^ 53 : ℤ) : ℚ) := by exact_mod_cast h
    have e : (2 : ℚ) ^ (53 : ℤ) = ((2 ^ 53 : ℤ) : ℚ) := by norm_num
    rw [e]
    simpa using this
  obtain ⟨h1, h2⟩ := log_two_bounds ha
  have hb : 1 < 2 := by norm_num
  have hk0 : 0 ≤ Int.log 2 |(i : ℚ)| := by
    rw [← Int.zpow_le_iff_le_log hb ha]
    simpa using hge
  have hk53 : Int.log 2 |(i : ℚ)| ≤ 53 := by
    have : (2 : ℚ) ^ Int.log 2 |(i : ℚ)| ≤ 2 ^ (53 : ℤ) := le_trans h1 hle
    exact (zpow_le_zpow_iff_right₀ (by norm_num)).1 this
  have he : lastPlace |(i : ℚ)| = Int.log 2 |(i : ℚ)| - 52 := by
    unfold lastPlace
    omega
  have hlt : |(i : ℚ)| < (2 : ℚ) ^ (1024 : ℤ) :=
    lt_of_le_of_lt hle (zpow_lt_zpow_right₀ (by norm_num) (by norm_num))
  -- the magnitude is a natural number
  obtain ⟨n, hn⟩ : ∃ n : ℕ, |(i : ℚ)| = (n : ℚ) := by
    refine ⟨i.natAbs, ?_⟩
    have e : ((|i| : ℤ) : ℚ) = ((i.natAbs : ℤ) : ℚ) := by rw [Int.abs_eq_natAbs]
    rw [Int.cast_abs] at e
    rw [e, Int.cast_natCast]
  have h2ne : (2 : ℚ) ≠ 0 := by norm_num
  rcases lt_or_ge (Int.log 2 |(i : ℚ)|) 53 with hlt53 | hge53
  · -- the unit of the last place is at most 1
    obtain ⟨d, hd⟩ : ∃ d : ℕ, (d : ℤ) = 52 - Int.log 2 |(i : ℚ)| :=
      ⟨(52 - Int.log 2 |(i : ℚ)|).toNat, Int.toNat_of_nonneg (by omega)⟩
    refine round64_of_natural hq (t := n * 2 ^ d) ?_ hlt
    have e : lastPlace |(i : ℚ)| = -(d : ℤ) := by
      rw [he, hd]
      ring
    rw [e, zpow_neg, zpow_natCast, hn]
    push_cast
    field_simp
  · -- the magnitude is `2^53`
    have hk : Int.log 2 |(i : ℚ)| = 53 := by omega
    have hval : |(i : ℚ)| = (2 : ℚ) ^ (53 : ℤ) := by
      rw [hk] at h1
      exact le_antisymm hle h1
    refine round64_of_natural hq (t := 2 ^ 52) ?_ hlt
    rw [he, hk, hval]
    norm_num

/-- The conversion of a non-zero `int` of Go: a number of magnitude from 1 to `2^64`,
within `2^-53` of the `int` in relative terms. -/
theorem round64_int64 (i : ℤ) (hi : i ≠ 0) (hb : |i| ≤ 2 ^ 63) :
    ∃ v : ℚ, round64 (i : ℚ) = .finite v ∧ 1 ≤ |v| ∧ |v| ≤ (2 : ℚ) ^ (64 : ℤ) ∧
      |v - (i : ℚ)| ≤ |(i : ℚ)| / 2 ^ 53 := by
  have hq : (i : ℚ) ≠ 0 := by exact_mod_cast hi
  have ha : 0 < |(i : ℚ)| := abs_pos.2 hq
  have hge : (1 : ℚ) ≤ |(i : ℚ)| := by
    have : (1 : ℤ) ≤ |i| := Int.one_le_abs hi
    exact_mod_cast this
  have hle : |(i : ℚ)| ≤ (2 : ℚ) ^ (63 : ℤ) := by
    have : ((|i| : ℤ) : ℚ) ≤ ((2 ^ 63 : ℤ) : ℚ) := by exact_mod_cast hb
    have e : (2 : ℚ) ^ (63 : ℤ) = ((2 ^ 63 : ℤ) : ℚ) := by norm_num
    rw [e]
    simpa using this
  obtain ⟨h1, h2⟩ := log_two_bounds ha
  have hbb : 1 < 2 := by norm_num
  have hk0 : 0 ≤ Int.log 2 |(i : ℚ)| := by
    rw [← Int.zpow_le_iff_le_log hbb ha]
    simpa using hge
  have hk63 : Int.log 2 |(i : ℚ)| ≤ 63 := by
    have : (2 : ℚ) ^ Int.log 2 |(i : ℚ)| ≤ 2 ^ (63 : ℤ) := le_trans h1 hle
    exact (zpow_le_zpow_iff_right₀ (by norm_num)).1 this
  obtain ⟨v, hv, hlo, hhi, herr, -, -⟩ := round64_normal hq (by omega) (by omega)
  refine ⟨v, hv, ?_, ?_, ?_⟩
  · refine le_trans ?_ hlo
    have : (2 : ℚ) ^ (0 : ℤ) ≤ 2 ^ Int.log 2 |(i : ℚ)| :=
      zpow_le_zpow_right₀ (by norm_num) hk0
    simpa using this
  · refine le_trans hhi ?_
    exact zpow_le_zpow_right₀ (by norm_num) (by omega)
  · refine le_trans herr ?_
    have h2ne : (2 : ℚ) ≠ 0 := by norm_num
    have e : (2 : ℚ) ^ (Int.log 2 |(i : ℚ)| - 53) = 2 ^ Int.log 2 |(i : ℚ)| / 2 ^ 53 := by
      rw [zpow_sub₀ h2ne]
      norm_num
    rw [e]
    exact div_le_div_of_nonneg_right h1 (by norm_num)

/-- The quotient of two binary64 numbers of magnitude from 1 to `2^64`, or of zero by such
a number: a number within `2^-53` of the exact quotient in relative terms. -/
theorem div64_moderate (x y : ℚ) (hx : x = 0 ∨ (1 ≤ |x| ∧ |x| ≤ (2 : ℚ) ^ (64 : ℤ)))
    (hy1 : 1 ≤ |y|) (hy2 : |y| ≤ (2 : ℚ) ^ (64 : ℤ)) :
    div64 (.finite x) (.finite y) = round64 (x / y) ∧
      ∃ v : ℚ, div64 (.finite x) (.finite y) = .finite v ∧ |v - x / y| ≤ |x / y| / 2 ^ 53 := by
  have hy0 : y ≠ 0 := by
    intro h
    rw [h] at hy1
    norm_num at hy1
  have hdiv : div64 (.finite x) (.finite y) = round64 (x / y) := by
    simp [div64, hy0]
  refine ⟨hdiv, ?_⟩
  rw [hdiv]
  rcases hx with hx0 | ⟨hx1, hx2⟩
  · subst hx0
    refine ⟨0, ?_, ?_⟩
    · simpa using round64_zero
    · simp
  · have hx0 : x ≠ 0 := by
      intro h
      rw [h] at hx1
      norm_num at hx1
    have hq : x / y ≠ 0 := div_ne_zero hx0 hy0
    have ha : 0 < |x / y| := abs_pos.2 hq
    have hypos : 0 < |y| := lt_of_lt_of_le one_pos hy1
    have hbb : 1 < 2 := by norm_num
    have hqlo : (2 : ℚ) ^ (-64 : ℤ) ≤ |x / y| := by
      rw [abs_div, le_div_iff₀ hypos]
      have : (2 : ℚ) ^ (-64 : ℤ) * |y| ≤ 2 ^ (-64 : ℤ) * 2 ^ (64 : ℤ) :=
        mul_le_mul_of_nonneg_left hy2 (le_of_lt (zpow_pos (by norm_num) _))
      have e : (2 : ℚ) ^ (-64 : ℤ) * 2 ^ (64 : ℤ) = 1 := by norm_num
      linarith
    have hqhi : |x / y| ≤ (2 : ℚ) ^ (64 : ℤ) := by
      rw [abs_div, div_le_iff₀ hypos]
      have : (2 : ℚ) ^ (64 : ℤ) * 1 ≤ 2 ^ (64 : ℤ) * |y| :=
        mul_le_mul_of_nonneg_left hy1 (le_of_lt (zpow_pos (by norm_num) _))
      linarith
    obtain ⟨h1, h2⟩ := log_two_bounds ha
    have hklo : -64 ≤ Int.log 2 |x / y| := by
      rw [← Int.zpow_le_iff_le_log hbb ha]
      simpa using hqlo
    have hkhi : Int.log 2 |x / y| ≤ 64 := by
      have : (2 : ℚ) ^ Int.log 2 |x / y| ≤ 2 ^ (64 : ℤ) := le_trans h1 hqhi
      exact (zpow_le_zpow_iff_right₀ (by norm_num)).1 this
    obtain ⟨v, hv, -, -, herr, -, -⟩ := round64_normal hq (by omega) (by omega)
    refine ⟨v, hv, le_trans herr ?_⟩
    have h2ne : (2 : ℚ) ≠ 0 := by norm_num
    have e : (2 : ℚ) ^ (Int.log 2 |x / y| - 53) = 2 ^ Int.log 2 |x / y| / 2 ^ 53 := by
      rw [zpow_sub₀ h2ne]
      norm_num
    rw [e]
    exact div_le_div_of_nonneg_right h1 (by norm_num)

theorem roundHalfEven_eq {s : ℚ} {f : ℕ} (h1 : (f : ℚ) ≤ s) (h2 : s < (f : ℚ) + 1) :
    roundHalfEven s =
      if s - f < 1 / 2 then f
      else if 1 / 2 < s - f then f + 1
      else if f % 2 = 0 then f else f + 1 := by
  have hs : 0 ≤ s := le_trans (Nat.cast_nonneg f) h1
  have hfl : ⌊s⌋₊ = f := (Nat.floor_eq_iff hs).2 ⟨h1, h2⟩
  unfold roundHalfEven
  simp only [hfl]

/-- The rounding of a positive rational from its leading bit and the rounding of its
quotient by the unit of the last place. -/
theorem round64_eval {q : ℚ} (hq : 0 < q) {k : ℤ} (h1 : (2 : ℚ) ^ k ≤ q)
    (h2 : q < (2 : ℚ) ^ (k + 1)) (hk : -1022 ≤ k) {m : ℕ}
    (hm : roundHalfEven (q / 2 ^ (k - 52)) = m)
    (hv : (m : ℚ) * 2 ^ (k - 52) < (2 : ℚ) ^ (1024 : ℤ)) :
    round64 q = .finite ((m : ℚ) * 2 ^ (k - 52)) := by
  have habs : |q| = q := abs_of_pos hq
  have hlog : Int.log 2 q = k := log_two_eq hq h1 h2
  have he : lastPlace q = k - 52 := by
    unfold lastPlace
    rw [hlog]
    omega
  unfold round64
  rw [if_neg (ne_of_gt hq)]
  simp only [habs, he, hm]
  rw [if_neg (not_le.2 hv), if_pos hq]

theorem round64_two_pow_53_add_one :
    round64 (9007199254740993 : ℚ) = .finite (9007199254740992 : ℚ) := by
  have hm : roundHalfEven ((9007199254740993 : ℚ) / 2 ^ ((53 : ℤ) - 52)) =
      4503599627370496 := by
    rw [roundHalfEven_eq (f := 4503599627370496) (by norm_num) (by norm_num)]
    norm_num
  have h := round64_eval (q := 9007199254740993) (k := 53) (by norm_num) (by norm_num)
    (by norm_num) (by norm_num) hm (by norm_num)
  rw [h]
  norm_num

theorem round64_one_third :
    round64 ((1 : ℚ) / 3) = .finite ((6004799503160661 : ℚ) / 18014398509481984) := by
  have hm : roundHalfEven (((1 : ℚ) / 3) / 2 ^ ((-2 : ℤ) - 52)) = 6004799503160661 := by
    rw [roundHalfEven_eq (f := 6004799503160661) (by norm_num) (by norm_num)]
    norm_num
  have h := round64_eval (q := (1 : ℚ) / 3) (k := -2) (by norm_num) (by norm_num)
    (by norm_num) (by norm_num) hm (by norm_num)
  rw [h]
  norm_num

/-! ## The claims -/

/-- C1. For every input, after `Analyse` the values of `WordCountPerSyllableCount` add up
to `CountTotalWords`, whatever the alternative estimator and the dictionary return (both
are fields of the arbitrary `env`). -/
theorem wordCount_sum_eq_totalWords (env : Env) (r : Reader) :
    (Analyse env r).1.WordCountPerSyllableCount.values.sum = (Analyse env r).1.CountTotalWords := by
  obtain ⟨h1, -, -, h4, -, -⟩ := scanAll_fields env r.runes
  show (scanAll env r.runes).res.WordCountPerSyllableCount.values.sum =
    (scanAll env r.runes).res.CountTotalWords
  rw [h1, h4]
  exact aggregate_wordCount_sum env _

/-- C2. For every input, after `Analyse` the values of `UniqueWordCountPerSyllableCount`
add up to `CountUniqueWords`, which is the number of keys of `WordList`; the keys are
pairwise distinct, so that their number is the length of the list of keys. -/
theorem uniqueCount_sum_eq_uniqueWords (env : Env) (r : Reader) :
    (Analyse env r).1.UniqueWordCountPerSyllableCount.values.sum =
        (Analyse env r).1.CountUniqueWords ∧
      (Analyse env r).1.CountUniqueWords = ((Analyse env r).1.WordList.keys.length : Int) ∧
      (Analyse env r).1.WordList.keys.Nodup := by
  obtain ⟨-, h2, -, -, h5, h6⟩ := scanAll_fields env r.runes
  show (scanAll env r.runes).res.UniqueWordCountPerSyllableCount.values.sum =
        (scanAll env r.runes).res.CountUniqueWords ∧
      (scanAll env r.runes).res.CountUniqueWords =
        ((scanAll env r.runes).res.WordList.keys.length : Int) ∧
      (scanAll env r.runes).res.WordList.keys.Nodup
  rw [h2, h5, h6]
  exact aggregate_unique env _

/-- C3. For every input and every string `w`: `w` is a key of `WordList` after `Analyse`
iff `w` is one of the word events; the entry of `w` then has `Occurrences` equal to the
number of word events spelled exactly `w`; `CountTotalWords` is the number of word
events.  On "ham ham." this gives `CountTotalWords = 2`, `CountUniqueWords = 1` and
`WordList["ham"].Occurrences = 2`, for every estimator and every table. -/
theorem wordList_counts_events (env : Env) (r : Reader) (w : List Char) :
    (w ∈ (Analyse env r).1.WordList.keys ↔ w ∈ wordEvents env r.runes) ∧
      (∀ e, (Analyse env r).1.WordList.get? w = some e →
        e.Occurrences = ((wordEvents env r.runes).count w : Int)) ∧
      (w ∈ wordEvents env r.runes →
        ∃ e, (Analyse env r).1.WordList.get? w = some e ∧
          e.Occurrences = ((wordEvents env r.runes).count w : Int)) ∧
      (Analyse env r).1.CountTotalWords = ((wordEvents env r.runes).length : Int) ∧
      (∀ alt cmu dale,
        (Analyse (asciiEnv alt cmu dale) ⟨"ham ham.".toList, none⟩).1.CountTotalWords = 2 ∧
        (Analyse (asciiEnv alt cmu dale) ⟨"ham ham.".toList, none⟩).1.CountUniqueWords = 1 ∧
        ((Analyse (asciiEnv alt cmu dale) ⟨"ham ham.".toList, none⟩).1.WordList.get?
          "ham".toList).map Word.Occurrences = some 2) := by
  obtain ⟨h1, -, -, -, -, h6⟩ := scanAll_fields env r.runes
  have hget := aggregate_wordList_get? env (wordEvents env r.runes) w
  have hkey : w ∈ (scanAll env r.runes).res.WordList.keys ↔ w ∈ wordEvents env r.runes := by
    rw [h6]
    have := GoMap.get?_eq_none_iff (aggregate env (wordEvents env r.runes)).WordList w
    rw [hget] at this
    by_cases hm : w ∈ wordEvents env r.runes
    · simp only [hm, if_true, iff_true]
      by_contra hk
      have := this.2 hk
      simp [hm] at this
    · simp only [hm, if_false, iff_false]
      exact this.1 (by simp [hm])
  refine ⟨hkey, ?_, ?_, ?_, ?_⟩
  · intro e he
    change (scanAll env r.runes).res.WordList.get? w = some e at he
    rw [h6, hget] at he
    split at he
    · cases he
      rfl
    · cases he
  · intro hm
    refine ⟨⟨w, ((wordEvents env r.runes).count w : Int), analyseSyllables env w⟩, ?_, rfl⟩
    show (scanAll env r.runes).res.WordList.get? w = _
    rw [h6, hget, if_pos hm]
  · show (scanAll env r.runes).res.CountTotalWords = _
    rw [h1]
    exact aggregate_totalWords env _
  · intro alt cmu dale
    have hev : wordEvents (asciiEnv alt cmu dale) "ham ham.".toList =
        ["ham".toList, "ham".toList] := by
      rfl
    obtain ⟨g1, g2, -, -, -, g6⟩ := scanAll_fields (asciiEnv alt cmu dale) "ham ham.".toList
    refine ⟨?_, ?_, ?_⟩
    · show (scanAll (asciiEnv alt cmu dale) "ham ham.".toList).res.CountTotalWords = 2
      rw [g1, aggregate_totalWords, hev]
      rfl
    · show (scanAll (asciiEnv alt cmu dale) "ham ham.".toList).res.CountUniqueWords = 1
      rw [g2, (aggregate_unique _ _).2.1, hev]
      simp [aggregate, analyseWord_WordList, emptyResults, GoMap.get?, GoMap.set, GoMap.keys]
    · show ((scanAll (asciiEnv alt cmu dale) "ham ham.".toList).res.WordList.get?
          "ham".toList).map Word.Occurrences = some 2
      rw [g6, aggregate_wordList_get?, hev]
      simp

/-- C4. For every input, after `Analyse` the field `Syllables` is the sum of
`MostLikelySyllableCount` over the word events, which is the sum of
`Occurrences * MostLikelySyllableCount` over the entries of `WordList` and the sum of
`k * WordCountPerSyllableCount[k]` over the keys `k`. -/
theorem syllables_eq_sums (env : Env) (r : Reader) :
    (Analyse env r).1.Syllables =
        ((wordEvents env r.runes).map fun w =>
          (analyseSyllables env w).MostLikelySyllableCount).sum ∧
      (Analyse env r).1.Syllables = occurrenceSyllables (Analyse env r).1.WordList ∧
      (Analyse env r).1.Syllables = weightedSum (Analyse env r).1.WordCountPerSyllableCount := by
  obtain ⟨-, -, h3, h4, -, h6⟩ := scanAll_fields env r.runes
  show (scanAll env r.runes).res.Syllables = _ ∧
      (scanAll env r.runes).res.Syllables =
        occurrenceSyllables (scanAll env r.runes).res.WordList ∧
      (scanAll env r.runes).res.Syllables =
        weightedSum (scanAll env r.runes).res.WordCountPerSyllableCount
  rw [h3, h4, h6]
  exact ⟨aggregate_syllables env _, (aggregate_occurrenceSyllables env _).symm,
    (aggregate_weightedSum env _).symm⟩

/-- C5. Reconciliation, step 1: when the dictionary has an entry for the word, the
`switch` of `analyseWord` chooses the dictionary count for every value of the heuristic and
alternative counts, and that count is what `analyseWord` adds to `Syllables`, counts in
`WordCountPerSyllableCount` and stores with a new word. -/
theorem dictionary_overrides (env : Env) (word : List Char) (res : Results) (c : Int)
    (h : env.CMUDictSyllableCountPerWord word = some c) :
    (∀ d a : Int, chooseMostLikely (some c) d a = c) ∧
      (analyseSyllables env word).MostLikelySyllableCount = c ∧
      (analyseWord env word res).Syllables = res.Syllables + c ∧
      (analyseWord env word res).WordCountPerSyllableCount =
        increment res.WordCountPerSyllableCount c ∧
      (res.WordList.get? word = none →
        ((analyseWord env word res).WordList.get? word).map
          (fun e => e.Syllables.MostLikelySyllableCount) = some c) := by
  have hml : (analyseSyllables env word).MostLikelySyllableCount = c := by
    simp [analyseSyllables, chooseMostLikely, h]
  refine ⟨fun d a => rfl, hml, ?_, ?_, ?_⟩
  · rw [analyseWord_Syllables, hml]
  · rw [analyseWord_WordCount, hml]
  · intro hnone
    rw [analyseWord_WordList, hnone]
    simp only [GoMap.get?_set_self, Option.map_some']
    rw [hml]

/-- C5, at the word "ham" with a dictionary that answers 7 while both estimators say
otherwise. -/
theorem dictionary_overrides_witness :
    (asciiEnv (fun _ => 2) (fun _ => some 7) (fun _ => false)).CMUDictSyllableCountPerWord
        "ham".toList = some 7 ∧
      ((∀ d a : Int, chooseMostLikely (some 7) d a = 7) ∧
        (analyseSyllables (asciiEnv (fun _ => 2) (fun _ => some 7) (fun _ => false))
          "ham".toList).MostLikelySyllableCount = 7 ∧
        (analyseWord (asciiEnv (fun _ => 2) (fun _ => some 7) (fun _ => false)) "ham".toList
          emptyResults).Syllables = emptyResults.Syllables + 7 ∧
        (analyseWord (asciiEnv (fun _ => 2) (fun _ => some 7) (fun _ => false)) "ham".toList
          emptyResults).WordCountPerSyllableCount =
            increment emptyResults.WordCountPerSyllableCount 7 ∧
        (emptyResults.WordList.get? "ham".toList = none →
          ((analyseWord (asciiEnv (fun _ => 2) (fun _ => some 7) (fun _ => false)) "ham".toList
            emptyResults).WordList.get? "ham".toList).map
              (fun e => e.Syllables.MostLikelySyllableCount) = some 7)) :=
  ⟨rfl, dictionary_overrides _ _ _ 7 rfl⟩

/-- C6. Reconciliation, steps 2 and 3: for a word without dictionary entry, if the
heuristic and alternative counts agree, or their ordered pair is one of (2,3), (3,4),
(4,5), (5,4), (6,5), (6,7), (7,6), the count chosen is the heuristic one.  The key
`"%d-%d"` of two counts is in the table exactly for these seven pairs, the keys of the
table are the keys of these pairs, and no other pair of integers, negative ones included,
has the key of one of them. -/
theorem agreement_or_tieBreak (env : Env) (word : List Char)
    (h : env.CMUDictSyllableCountPerWord word = none) :
    ((SyllableCount env word = SyllableCountAlternative env word ∨
        (SyllableCount env word, SyllableCountAlternative env word) ∈ tieBreakPairs) →
      (analyseSyllables env word).MostLikelySyllableCount = SyllableCount env word) ∧
    (∀ d a : Int, (d = a ∨ (d, a) ∈ tieBreakPairs) → chooseMostLikely none d a = d) ∧
    (∀ d a : Int,
      (ChooseDefaultAlgoOverAlternative.get? (sprintfPair d a)).getD false = true ↔
        (d, a) ∈ tieBreakPairs) ∧
    ChooseDefaultAlgoOverAlternative.keys = tieBreakPairs.map (fun p => sprintfPair p.1 p.2) ∧
    (∀ d a x y : Int, (x, y) ∈ tieBreakPairs →
      (sprintfPair d a = sprintfPair x y ↔ d = x ∧ a = y)) := by
  have hpure : ∀ d a : Int, (d = a ∨ (d, a) ∈ tieBreakPairs) → chooseMostLikely none d a = d := by
    intro d a hda
    unfold chooseMostLikely
    simp only []
    by_cases heq : d = a
    · rw [if_pos heq]
    · rw [if_neg heq]
      rcases hda with hda | hda
      · exact absurd hda heq
      · rw [if_pos ((tieBreak_key_iff d a).2 hda)]
  refine ⟨?_, hpure, tieBreak_key_iff, by decide, ?_⟩
  · intro hda
    have := hpure _ _ hda
    simpa [analyseSyllables, h] using this
  · intro d a x y hxy
    constructor
    · intro hkey
      have hin : (d, a) ∈ tieBreakPairs := by
        rw [← tieBreak_key_iff, hkey, tieBreak_key_iff]
        exact hxy
      simp only [tieBreakPairs, List.mem_cons, Prod.mk.injEq, List.mem_singleton,
        List.not_mem_nil, or_false] at hin hxy
      rcases hin with h1 | h1 | h1 | h1 | h1 | h1 | h1 <;> obtain ⟨rfl, rfl⟩ := h1 <;>
        rcases hxy with h2 | h2 | h2 | h2 | h2 | h2 | h2 <;> obtain ⟨rfl, rfl⟩ := h2 <;>
        first
          | exact ⟨rfl, rfl⟩
          | exact absurd hkey (by decide)
    · rintro ⟨rfl, rfl⟩
      rfl

/-- C6, at the word "ham" without dictionary entry and with both estimators at 1. -/
theorem agreement_or_tieBreak_witness :
    (asciiEnv (fun _ => 1) (fun _ => none) (fun _ => false)).CMUDictSyllableCountPerWord
        "ham".toList = none ∧
      (analyseSyllables (asciiEnv (fun _ => 1) (fun _ => none) (fun _ => false))
        "ham".toList).MostLikelySyllableCount = 1 :=
  ⟨rfl, (agreement_or_tieBreak (asciiEnv (fun _ => 1) (fun _ => none) (fun _ => false))
    "ham".toList rfl).1 (Or.inl (by decide))⟩

/-- C7. Reconciliation, step 4: for a word without dictionary entry whose heuristic and
alternative counts differ and whose ordered pair is not in the tie-break table, the count
chosen is 0; that occurrence adds nothing to `Syllables` and is counted under key 0 of
`WordCountPerSyllableCount`. -/
theorem unmatched_defaults_to_zero (env : Env) (word : List Char) (res : Results)
    (h : env.CMUDictSyllableCountPerWord word = none)
    (hne : SyllableCount env word ≠ SyllableCountAlternative env word)
    (hpair : (SyllableCount env word, SyllableCountAlternative env word) ∉ tieBreakPairs) :
    (analyseSyllables env word).MostLikelySyllableCount = 0 ∧
      (analyseWord env word res).Syllables = res.Syllables ∧
      (analyseWord env word res).WordCountPerSyllableCount =
        increment res.WordCountPerSyllableCount 0 := by
  have hkey : ¬(ChooseDefaultAlgoOverAlternative.get?
      (sprintfPair (SyllableCount env word) (SyllableCountAlternative env word))).getD false
        = true :=
    fun hk => hpair ((tieBreak_key_iff _ _).1 hk)
  have hml : (analyseSyllables env word).MostLikelySyllableCount = 0 := by
    unfold analyseSyllables chooseMostLikely
    simp only [h]
    rw [if_neg hne, if_neg hkey]
  refine ⟨hml, ?_, ?_⟩
  · rw [analyseWord_Syllables, hml, add_zero]
  · rw [analyseWord_WordCount, hml]

/-- C7, at the word "ham" without dictionary entry, heuristic count 1 and alternative
count 2. -/
theorem unmatched_defaults_to_zero_witness :
    (analyseSyllables (asciiEnv (fun _ => 2) (fun _ => none) (fun _ => false))
        "ham".toList).MostLikelySyllableCount = 0 ∧
      (analyseWord (asciiEnv (fun _ => 2) (fun _ => none) (fun _ => false)) "ham".toList
        emptyResults).Syllables = emptyResults.Syllables ∧
      (analyseWord (asciiEnv (fun _ => 2) (fun _ => none) (fun _ => false)) "ham".toList
        emptyResults).WordCountPerSyllableCount =
          increment emptyResults.WordCountPerSyllableCount 0 :=
  unmatched_defaults_to_zero (asciiEnv (fun _ => 2) (fun _ => none) (fun _ => false))
    "ham".toList emptyResults rfl (by decide) (by decide)

/-- C8. The comment on `MostLikelySyllableCount` promises the alternative count for a word
without dictionary entry whose pair is not in the table.  For "ham", with no dictionary
entry, heuristic count 1 and alternative count 2, the pair (1,2) is not in the table and
the count chosen is 0, not the alternative count 2. -/
theorem unmatched_is_not_alternative :
    (asciiEnv (fun _ => 2) (fun _ => none) (fun _ => false)).CMUDictSyllableCountPerWord
        "ham".toList = none ∧
      (analyseSyllables (asciiEnv (fun _ => 2) (fun _ => none) (fun _ => false))
        "ham".toList).DefaultAlgoSyllableCount = 1 ∧
      (analyseSyllables (asciiEnv (fun _ => 2) (fun _ => none) (fun _ => false))
        "ham".toList).AlternativeAlgoSyllableCount = 2 ∧
      ((1 : Int), (2 : Int)) ∉ tieBreakPairs ∧
      (analyseSyllables (asciiEnv (fun _ => 2) (fun _ => none) (fun _ => false))
        "ham".toList).MostLikelySyllableCount = 0 ∧
      (analyseSyllables (asciiEnv (fun _ => 2) (fun _ => none) (fun _ => false))
        "ham".toList).MostLikelySyllableCount ≠
        (analyseSyllables (asciiEnv (fun _ => 2) (fun _ => none) (fun _ => false))
          "ham".toList).AlternativeAlgoSyllableCount := by
  decide

/-- C9. For every rune sequence the word events of `Analyse` are, in order, the non-empty
pieces of the input without its Other runes, cut at the Space and Punctuation runes; every
event is non-empty and made of Letter runes; a sequence of letters alone is one event,
emitted at the end of the stream.  "Cat sat." gives the events "Cat" and "sat", and so
does " Cat,  sat", whose last word has no delimiter after it. -/
theorem wordEvents_are_letterRuns (env : Env) (runes : List Char) :
    wordEvents env runes = letterRuns env runes ∧
      (∀ w ∈ wordEvents env runes, w ≠ [] ∧ ∀ x ∈ w, env.isLetter x = true) ∧
      ((runes ≠ [] ∧ ∀ x ∈ runes, env.isLetter x = true) → wordEvents env runes = [runes]) ∧
      (∀ alt cmu dale,
        wordEvents (asciiEnv alt cmu dale) "Cat sat.".toList = ["Cat".toList, "sat".toList] ∧
        wordEvents (asciiEnv alt cmu dale) " Cat,  sat".toList =
          ["Cat".toList, "sat".toList]) := by
  refine ⟨wordEvents_eq_letterRuns env runes, wordEvents_lettered env runes, ?_, ?_⟩
  · rintro ⟨hne, hl⟩
    have hd : dropOther env runes = runes := by
      unfold dropOther
      rw [List.filter_eq_self]
      intro x hx
      simp [runeClass, hl x hx]
    have hs : runes.splitOnP (isDelimiter env) = [runes] :=
      List.splitOnP_eq_single _ _ (by
        intro x hx
        simp [isDelimiter_of_isLetter env (hl x hx)])
    rw [wordEvents_eq_letterRuns, letterRuns, hd, hs]
    simp [hne]
  · intro alt cmu dale
    exact ⟨rfl, rfl⟩

/-- C10. Other runes are ignored: `Analyse` returns the same record, equal in every field,
and the same error, on a rune sequence and on that sequence without its runes that are
neither Letter, Space nor Punctuation, and the word events are the same.  In "a1b" the
digit does not end the word: the only word event is "ab". -/
theorem other_runes_ignored (env : Env) (r : Reader) :
    Analyse env r = Analyse env { runes := dropOther env r.runes, err := r.err } ∧
      wordEvents env r.runes = wordEvents env (dropOther env r.runes) ∧
      (∀ alt cmu dale, wordEvents (asciiEnv alt cmu dale) "a1b".toList = ["ab".toList]) := by
  have h : scanAll env r.runes = scanAll env (dropOther env r.runes) := by
    unfold scanAll
    rw [foldl_scanStep_dropOther env r.runes Scan.init init_ready]
  refine ⟨?_, ?_, ?_⟩
  · unfold Analyse
    rw [h]
  · unfold wordEvents
    rw [h]
  · intro alt cmu dale
    rfl

/-- C11 as stated fails: on "a1b" the word events are not "a" and "b" and
`CountTotalWords` is not 2; there is one word event, "ab". -/
theorem a1b_not_two_words :
    wordEvents (asciiEnv (fun _ => 1) (fun _ => none) (fun _ => false)) "a1b".toList =
        ["ab".toList] ∧
      ¬(wordEvents (asciiEnv (fun _ => 1) (fun _ => none) (fun _ => false)) "a1b".toList =
          ["a".toList, "b".toList]) ∧
      (Analyse (asciiEnv (fun _ => 1) (fun _ => none) (fun _ => false))
        ⟨"a1b".toList, none⟩).1.CountTotalWords = 1 ∧
      ¬((Analyse (asciiEnv (fun _ => 1) (fun _ => none) (fun _ => false))
        ⟨"a1b".toList, none⟩).1.CountTotalWords = 2) := by
  decide

/-- C11, amended.  For the input "a1b", `Analyse` tokenizes one word event "ab"
(`CountTotalWords = 1`), with the digit dropped and not counted in `Letters`,
`Punctuation` or `Spaces` (`Letters = 2`, `Punctuation = 0`, `Spaces = 0`); generally,
in a sequence of Letter runes interleaved with any number of runes of class Other
(digits, symbols), every Other rune is dropped and counted nowhere, and the letters are
one word event: "a1b2c" gives "abc", "a12b" gives "ab". -/
theorem a1b_is_one_word (alt : List Char → Int) (cmu : List Char → Option Int)
    (dale : List Char → Bool) :
    wordEvents (asciiEnv alt cmu dale) "a1b".toList = ["ab".toList] ∧
      (Analyse (asciiEnv alt cmu dale) ⟨"a1b".toList, none⟩).1.CountTotalWords = 1 ∧
      (Analyse (asciiEnv alt cmu dale) ⟨"a1b".toList, none⟩).1.Letters = 2 ∧
      (Analyse (asciiEnv alt cmu dale) ⟨"a1b".toList, none⟩).1.Punctuation = 0 ∧
      (Analyse (asciiEnv alt cmu dale) ⟨"a1b".toList, none⟩).1.Spaces = 0 ∧
      (∀ (env : Env) (u v : List Char) (o : Char),
        (∀ x ∈ u, env.isLetter x = true) → (∀ x ∈ v, env.isLetter x = true) →
          runeClass env o = .other → u ++ v ≠ [] →
            wordEvents env (u ++ o :: v) = [u ++ v]) ∧
      (∀ (env : Env) (runes : List Char),
        (∀ x ∈ runes, runeClass env x = .letter ∨ runeClass env x = .other) →
          (∃ x ∈ runes, env.isLetter x = true) →
            wordEvents env runes = [runes.filter env.isLetter] ∧
              (Analyse env ⟨runes, none⟩).1.CountTotalWords = 1 ∧
              (Analyse env ⟨runes, none⟩).1.Letters =
                ((runes.filter env.isLetter).length : Int) ∧
              (Analyse env ⟨runes, none⟩).1.Punctuation = 0 ∧
              (Analyse env ⟨runes, none⟩).1.Spaces = 0) ∧
      wordEvents (asciiEnv alt cmu dale) "a1b2c".toList = ["abc".toList] ∧
      wordEvents (asciiEnv alt cmu dale) "a12b".toList = ["ab".toList] ∧
      wordEvents (asciiEnv alt cmu dale) "1a+2".toList = ["a".toList] := by
  have hev : wordEvents (asciiEnv alt cmu dale) "a1b".toList = ["ab".toList] := rfl
  obtain ⟨g1, -, -, -, -, -⟩ := scanAll_fields (asciiEnv alt cmu dale) "a1b".toList
  obtain ⟨k1, k2, k3, -⟩ := scanAll_counters (asciiEnv alt cmu dale) "a1b".toList
  refine ⟨hev, ?_, ?_, ?_, ?_, ?_, ?_, rfl, rfl, rfl⟩
  · show (scanAll (asciiEnv alt cmu dale) "a1b".toList).res.CountTotalWords = 1
    rw [g1, aggregate_totalWords, hev]
    rfl
  · show (scanAll (asciiEnv alt cmu dale) "a1b".toList).res.Letters = 2
    rw [k1]
    rfl
  · show (scanAll (asciiEnv alt cmu dale) "a1b".toList).res.Punctuation = 0
    rw [k3]
    rfl
  · show (scanAll (asciiEnv alt cmu dale) "a1b".toList).res.Spaces = 0
    rw [k2]
    rfl
  · intro env u v o hu hv ho hne
    exact wordEvents_other_inside env u v o hu hv ho hne
  · intro env runes hcls hne
    have hw := wordEvents_letters_among_others env runes hcls hne
    obtain ⟨f1, -, -, -, -, -⟩ := scanAll_fields env runes
    obtain ⟨-, c2, c3, -⟩ := scanAll_counters env runes
    refine ⟨hw, ?_, ?_, ?_, ?_⟩
    · show (scanAll env runes).res.CountTotalWords = 1
      rw [f1, aggregate_totalWords, hw]
      rfl
    · rw [Analyse_letters, hw]
      simp
    · show (scanAll env runes).res.Punctuation = 0
      rw [c3]
      have : runes.countP (fun c => decide (runeClass env c = .punctuation)) = 0 := by
        rw [List.countP_eq_zero]
        intro x hx
        rcases hcls x hx with h | h <;> simp [h]
      rw [this]
      rfl
    · show (scanAll env runes).res.Spaces = 0
      rw [c2]
      have : runes.countP (fun c => decide (runeClass env c = .space)) = 0 := by
        rw [List.countP_eq_zero]
        intro x hx
        rcases hcls x hx with h | h <;> simp [h]
      rw [this]
      rfl

/-- C12. For every rune sequence, after `Analyse`, `Letters`, `Spaces` and `Punctuation`
are the numbers of runes of class Letter, Space and Punctuation (of the runes that
`unicode.IsLetter`, `IsSpace` and `IsPunct` accept, when these exclude one another), the
classes are disjoint and with the Other runes account for every rune, and `Sentences` is
the number of Punctuation runes among '.', '!', '?', which is the number of runes equal
to '.', '!' or '?' as soon as the Unicode tables class these three as Punctuation, as
Go's do.  The empty input gives the empty record.  "Cat sat." gives `Letters = 6`,
`Spaces = 1`, `Punctuation = 1`, `Sentences = 1`. -/
theorem tokenizer_counters (env : Env) (r : Reader) :
    (Analyse env r).1.Letters =
        (r.runes.countP fun c => decide (runeClass env c = .letter) : Nat) ∧
      (Analyse env r).1.Spaces =
        (r.runes.countP fun c => decide (runeClass env c = .space) : Nat) ∧
      (Analyse env r).1.Punctuation =
        (r.runes.countP fun c => decide (runeClass env c = .punctuation) : Nat) ∧
      (Analyse env r).1.Sentences =
        (r.runes.countP fun c =>
          decide (runeClass env c = .punctuation ∧ isSentenceEnd c = true) : Nat) ∧
      ((runeClass env '.' = .punctuation ∧ runeClass env '!' = .punctuation ∧
          runeClass env '?' = .punctuation) →
        (Analyse env r).1.Sentences = (r.runes.countP isSentenceEnd : Nat)) ∧
      (((∀ c, env.isLetter c = true → env.isSpace c = false ∧ env.isPunct c = false) ∧
          (∀ c, env.isSpace c = true → env.isPunct c = false)) →
        (Analyse env r).1.Letters = (r.runes.countP env.isLetter : Nat) ∧
          (Analyse env r).1.Spaces = (r.runes.countP env.isSpace : Nat) ∧
          (Analyse env r).1.Punctuation = (r.runes.countP env.isPunct : Nat)) ∧
      (Analyse env r).1.Letters + (Analyse env r).1.Spaces + (Analyse env r).1.Punctuation +
          (r.runes.countP fun c => decide (runeClass env c = .other) : Nat) =
        (r.runes.length : Int) ∧
      (Analyse env ⟨[], r.err⟩).1 = emptyResults ∧
      (∀ alt cmu dale,
        (Analyse (asciiEnv alt cmu dale) ⟨"Cat sat.".toList, none⟩).1.Letters = 6 ∧
        (Analyse (asciiEnv alt cmu dale) ⟨"Cat sat.".toList, none⟩).1.Spaces = 1 ∧
        (Analyse (asciiEnv alt cmu dale) ⟨"Cat sat.".toList, none⟩).1.Punctuation = 1 ∧
        (Analyse (asciiEnv alt cmu dale) ⟨"Cat sat.".toList, none⟩).1.Sentences = 1) := by
  obtain ⟨k1, k2, k3, k4⟩ := scanAll_counters env r.runes
  refine ⟨k1, k2, k3, k4, ?_, ?_, ?_, rfl, ?_⟩
  · rintro ⟨hdot, hbang, hq⟩
    refine k4.trans ?_
    congr 1
    apply List.countP_congr
    intro c _
    simp only [decide_eq_true_eq]
    constructor
    · exact fun h => h.2
    · intro h
      refine ⟨?_, h⟩
      simp only [isSentenceEnd, decide_eq_true_eq] at h
      rcases h with rfl | rfl | rfl
      · exact hdot
      · exact hbang
      · exact hq
  · rintro ⟨h1, h2⟩
    have hc := runeClass_of_disjoint env h1 h2
    refine ⟨k1.trans ?_, k2.trans ?_, k3.trans ?_⟩ <;> congr 1 <;>
      apply List.countP_congr <;> intro c _ <;> simp only [decide_eq_true_eq]
    · exact (hc c).1
    · exact (hc c).2.1
    · exact (hc c).2.2
  · show (scanAll env r.runes).res.Letters + (scanAll env r.runes).res.Spaces +
        (scanAll env r.runes).res.Punctuation + _ = _
    rw [k1, k2, k3]
    induction r.runes with
    | nil => simp
    | cons c cs ih =>
      simp only [List.countP_cons, List.length_cons]
      cases hc : runeClass env c <;> simp <;> omega
  · intro alt cmu dale
    obtain ⟨c1, c2, c3, c4⟩ := scanAll_counters (asciiEnv alt cmu dale) "Cat sat.".toList
    exact ⟨c1.trans rfl, c2.trans rfl, c3.trans rfl, c4.trans rfl⟩

/-- C13. For every word whose lower-cased form is a key of `ProblemWords`,
`SyllableCount` returns the listed value, whatever the rules would compute: the listed
values are 3, 3, 2, 2 for simile, forever, shoreline, forest, in any letter case, where
the rules alone give 2, 2, 3, 1. -/
theorem problemWord_override (env : Env) (word : List Char) (n : Int)
    (h : ProblemWords.get? (word.map env.toLower) = some n) :
    SyllableCount env word = n ∧
      ProblemWords.keys =
        ["simile".toList, "forever".toList, "shoreline".toList, "forest".toList] ∧
      ProblemWords.values = [3, 3, 2, 2] ∧
      (∀ alt cmu dale,
        SyllableCount (asciiEnv alt cmu dale) "Simile".toList = 3 ∧
        SyllableCount (asciiEnv alt cmu dale) "FOREVER".toList = 3 ∧
        SyllableCount (asciiEnv alt cmu dale) "shoreLine".toList = 2 ∧
        SyllableCount (asciiEnv alt cmu dale) "forest".toList = 2) ∧
      ruleCount "simile".toList = 2 ∧ ruleCount "forever".toList = 2 ∧
      ruleCount "shoreline".toList = 3 ∧ ruleCount "forest".toList = 1 := by
  refine ⟨?_, rfl, rfl, ?_, by decide, by decide, by decide, by decide⟩
  · rw [SyllableCount_eq, h]
  · intro alt cmu dale
    exact ⟨(SyllableCount_asciiEnv alt cmu dale _).trans (by decide),
      (SyllableCount_asciiEnv alt cmu dale _).trans (by decide),
      (SyllableCount_asciiEnv alt cmu dale _).trans (by decide),
      (SyllableCount_asciiEnv alt cmu dale _).trans (by decide)⟩

/-- C13, at the word "Simile". -/
theorem problemWord_override_witness :
    ProblemWords.get?
        ("Simile".toList.map (asciiEnv (fun _ => 1) (fun _ => none) (fun _ => false)).toLower) =
        some 3 ∧
      SyllableCount (asciiEnv (fun _ => 1) (fun _ => none) (fun _ => false)) "Simile".toList =
        3 :=
  ⟨by decide,
    (problemWord_override (asciiEnv (fun _ => 1) (fun _ => none) (fun _ => false))
      "Simile".toList 3 (by decide)).1⟩

/-- C14. The heuristic estimate is not clamped: "carved" and "rved" are non-empty words
of letters for which `SyllableCount` returns 0 and -1; in both the patterns
`[^aeiouyt]{2,}ed$` and `rved?$` subtract. -/
theorem heuristic_not_clamped (alt : List Char → Int) (cmu : List Char → Option Int)
    (dale : List Char → Bool) :
    SyllableCount (asciiEnv alt cmu dale) "carved".toList = 0 ∧
      SyllableCount (asciiEnv alt cmu dale) "rved".toList = -1 ∧
      "carved".toList.all (asciiEnv alt cmu dale).isLetter = true ∧
      "rved".toList.all (asciiEnv alt cmu dale).isLetter = true ∧
      SubSyllables.get? 9 = some (cat [.rep (noneOf "aeiouyt") 2 none true, str "ed", .eol]) ∧
      SubSyllables.get? 12 = some (cat [str "rve", opt (.lit 'd'), .eol]) ∧
      (SubSyllables.map fun regex => regex.MatchString "carved".toList) =
        [false, false, false, false, false, false, false, false, false, true, false, false,
          true, false, false, false, false] ∧
      (SubSyllables.map fun regex => regex.MatchString "rved".toList) =
        [false, false, false, false, false, false, false, false, false, true, false, false,
          true, false, false, false, false] ∧
      (∃ w : List Char, w ≠ [] ∧ w.all (asciiEnv alt cmu dale).isLetter = true ∧
        SyllableCount (asciiEnv alt cmu dale) w = 0) ∧
      (∃ w : List Char, w ≠ [] ∧ w.all (asciiEnv alt cmu dale).isLetter = true ∧
        SyllableCount (asciiEnv alt cmu dale) w < 0) := by
  have h0 : SyllableCount (asciiEnv alt cmu dale) "carved".toList = 0 :=
    (SyllableCount_asciiEnv alt cmu dale _).trans (by decide)
  have h1 : SyllableCount (asciiEnv alt cmu dale) "rved".toList = -1 :=
    (SyllableCount_asciiEnv alt cmu dale _).trans (by decide)
  have l0 : "carved".toList.all (asciiEnv alt cmu dale).isLetter = true := rfl
  have l1 : "rved".toList.all (asciiEnv alt cmu dale).isLetter = true := rfl
  have p9 : SubSyllables.get? 9 =
      some (cat [.rep (noneOf "aeiouyt") 2 none true, str "ed", .eol]) := rfl
  have p12 : SubSyllables.get? 12 = some (cat [str "rve", opt (.lit 'd'), .eol]) := rfl
  refine ⟨h0, h1, l0, l1, p9, p12, by decide, by decide, ?_, ?_⟩
  · exact ⟨"carved".toList, by decide, l0, h0⟩
  · refine ⟨"rved".toList, by decide, l1, ?_⟩
    rw [h1]
    decide

/-- C15. For every input, `DifficultWords` is the number of word events that are not in
the Dale-Chall list and whose stem, the first group of the first match of `pluralRegexp`,
is not in the list either (a word without a match has no stem and counts when it is not
in the list).  For a non-empty word of ASCII letters that stem is the word without one
trailing `s` when the word has at least two runes and ends in `s`, and the word itself
otherwise.  A word that is in the list, or whose stem is, is never counted. -/
theorem difficultWords_count (env : Env) (r : Reader) :
    (Analyse env r).1.DifficultWords =
        ((wordEvents env r.runes).countP (isDifficult env) : Nat) ∧
      (∀ w : List Char,
        isDifficult env w =
          (!env.DaleChallWordList w &&
            match pluralRegexp.FindStringSubmatch w with
            | some (_ :: stem :: _) => !env.DaleChallWordList stem
            | _ => true)) ∧
      (∀ w : List Char, w ≠ [] → (∀ c ∈ w, isAsciiLetter c = true) →
        (∃ rest, pluralRegexp.FindStringSubmatch w = some (w :: pluralStem w :: rest)) ∧
          isDifficult env w = isDifficultSpec env w) ∧
      ((∀ w ∈ wordEvents env r.runes, ∀ c ∈ w, isAsciiLetter c = true) →
        (Analyse env r).1.DifficultWords =
          ((wordEvents env r.runes).countP (isDifficultSpec env) : Nat)) ∧
      (∀ w : List Char, env.DaleChallWordList w = true → isDifficult env w = false) ∧
      (∀ w whole stem rest, pluralRegexp.FindStringSubmatch w = some (whole :: stem :: rest) →
        env.DaleChallWordList stem = true → isDifficult env w = false) ∧
      pluralStem "cats".toList = "cat".toList ∧ pluralStem "glass".toList = "glas".toList ∧
      pluralStem "cat".toList = "cat".toList ∧ pluralStem "s".toList = "s".toList := by
  have hcount : (Analyse env r).1.DifficultWords =
      ((wordEvents env r.runes).countP (isDifficult env) : Nat) := by
    show (scanAll env r.runes).res.DifficultWords = _
    rw [scanAll_difficultWords, aggregate_difficultWords]
  refine ⟨hcount, ?_, ?_, ?_, ?_, ?_, by decide, by decide, by decide, by decide⟩
  · intro w
    unfold isDifficult
    cases env.DaleChallWordList w <;> rfl
  · intro w hne hw
    exact ⟨⟨_, pluralRegexp_submatch w hne hw⟩, isDifficult_eq_spec env w hne hw⟩
  · intro hascii
    rw [hcount]
    congr 1
    apply List.countP_congr
    intro w hmem
    rw [isDifficult_eq_spec env w (wordEvents_lettered env r.runes w hmem).1 (hascii w hmem)]
  · intro w hw
    simp [isDifficult, hw]
  · intro w whole stem rest hm hs
    simp [isDifficult, hm, hs]

/-- C16. For every record produced by `Analyse` and every integer `n`,
`WordsWithAtLeastNSyllables(n)` is the number of word events whose
`MostLikelySyllableCount` is at least `n`, which is the sum of
`WordCountPerSyllableCount[k]` over the keys `k ≥ n`; the total is never negative, so the
clamp to 0 is not taken; the value is at most `CountTotalWords` and does not increase
with `n`. -/
theorem wordsWithAtLeast_counts (env : Env) (r : Reader) (n : Int) :
    (Analyse env r).1.WordsWithAtLeastNSyllables n =
        ((wordEvents env r.runes).countP fun w =>
          decide ((analyseSyllables env w).MostLikelySyllableCount ≥ n) : Nat) ∧
      (Analyse env r).1.WordsWithAtLeastNSyllables n =
        ((Analyse env r).1.WordCountPerSyllableCount.map
          fun p => if p.1 ≥ n then p.2 else 0).sum ∧
      0 ≤ wordsWithAtLeastLoop n (Analyse env r).1.WordCountPerSyllableCount 0 ∧
      (Analyse env r).1.WordsWithAtLeastNSyllables n ≤ (Analyse env r).1.CountTotalWords ∧
      (∀ m : Int, n ≤ m →
        (Analyse env r).1.WordsWithAtLeastNSyllables m ≤
          (Analyse env r).1.WordsWithAtLeastNSyllables n) := by
  obtain ⟨h1, -, -, h4, -, -⟩ := scanAll_fields env r.runes
  have hloop : ∀ k : Int,
      wordsWithAtLeastLoop k (scanAll env r.runes).res.WordCountPerSyllableCount 0 =
        ((wordEvents env r.runes).countP fun w =>
          decide ((analyseSyllables env w).MostLikelySyllableCount ≥ k) : Nat) := by
    intro k
    rw [wordsWithAtLeastLoop_eq, h4, aggregate_atLeast, zero_add]
  have hval : ∀ k : Int,
      (scanAll env r.runes).res.WordsWithAtLeastNSyllables k =
        ((wordEvents env r.runes).countP fun w =>
          decide ((analyseSyllables env w).MostLikelySyllableCount ≥ k) : Nat) := by
    intro k
    unfold Results.WordsWithAtLeastNSyllables
    simp only [hloop k]
    rw [if_neg (by push_neg; exact Int.natCast_nonneg _)]
  show (scanAll env r.runes).res.WordsWithAtLeastNSyllables n = _ ∧
    (scanAll env r.runes).res.WordsWithAtLeastNSyllables n = _ ∧
    0 ≤ wordsWithAtLeastLoop n (scanAll env r.runes).res.WordCountPerSyllableCount 0 ∧
    (scanAll env r.runes).res.WordsWithAtLeastNSyllables n ≤
      (scanAll env r.runes).res.CountTotalWords ∧
    ∀ m : Int, n ≤ m →
      (scanAll env r.runes).res.WordsWithAtLeastNSyllables m ≤
        (scanAll env r.runes).res.WordsWithAtLeastNSyllables n
  refine ⟨hval n, ?_, ?_, ?_, ?_⟩
  · rw [hval n]
    show _ = ((scanAll env r.runes).res.WordCountPerSyllableCount.map
      fun p => if p.1 ≥ n then p.2 else 0).sum
    rw [h4, aggregate_atLeast]
  · rw [hloop n]
    exact Int.natCast_nonneg _
  · rw [hval n, h1, aggregate_totalWords]
    exact_mod_cast List.countP_le_length _
  · intro m hnm
    rw [hval n, hval m]
    have : (wordEvents env r.runes).countP (fun w =>
          decide ((analyseSyllables env w).MostLikelySyllableCount ≥ m)) ≤
        (wordEvents env r.runes).countP (fun w =>
          decide ((analyseSyllables env w).MostLikelySyllableCount ≥ n)) := by
      apply List.countP_mono_left
      intro w _ hw
      simp only [decide_eq_true_eq] at hw ⊢
      omega
    exact_mod_cast this

/-- C17 as stated fails: with `CountTotalWords = 2^53 + 1` and `Sentences = 0`,
`AverageWordsPerSentence` returns `2^53`, not `CountTotalWords`; with `CountTotalWords = 1`
and `Sentences = 3` it returns the binary64 number next to one third, not one third. -/
theorem averageWordsPerSentence_not_exact :
    ({ emptyResults with CountTotalWords := 9007199254740993 } :
        Results).AverageWordsPerSentence binary64 = .finite (9007199254740992 : ℚ) ∧
      ({ emptyResults with CountTotalWords := 9007199254740993 } :
        Results).AverageWordsPerSentence binary64 ≠ .finite (9007199254740993 : ℚ) ∧
      ({ emptyResults with CountTotalWords := 1, Sentences := 3 } :
        Results).AverageWordsPerSentence binary64 =
          .finite ((6004799503160661 : ℚ) / 18014398509481984) ∧
      ({ emptyResults with CountTotalWords := 1, Sentences := 3 } :
        Results).AverageWordsPerSentence binary64 ≠ .finite ((1 : ℚ) / 3) := by
  have h1 : ({ emptyResults with CountTotalWords := 9007199254740993 } :
      Results).AverageWordsPerSentence binary64 = .finite (9007199254740992 : ℚ) := by
    have e : ({ emptyResults with CountTotalWords := 9007199254740993 } :
        Results).AverageWordsPerSentence binary64 = round64 (9007199254740993 : ℚ) := by
      simp [Results.AverageWordsPerSentence, emptyResults, binary64]
    rw [e, round64_two_pow_53_add_one]
  have h2 : ({ emptyResults with CountTotalWords := 1, Sentences := 3 } :
      Results).AverageWordsPerSentence binary64 =
        .finite ((6004799503160661 : ℚ) / 18014398509481984) := by
    have e : ({ emptyResults with CountTotalWords := 1, Sentences := 3 } :
        Results).AverageWordsPerSentence binary64 =
          div64 (round64 ((1 : ℤ) : ℚ)) (round64 ((3 : ℤ) : ℚ)) := by
      simp [Results.AverageWordsPerSentence, emptyResults, binary64]
    rw [e, round64_intCast_of_le 1 (by norm_num), round64_intCast_of_le 3 (by norm_num)]
    have hd : div64 (.finite ((1 : ℤ) : ℚ)) (.finite ((3 : ℤ) : ℚ)) =
        round64 ((1 : ℚ) / 3) := by
      simp [div64]
    rw [hd, round64_one_third]
  refine ⟨h1, ?_, h2, ?_⟩
  · rw [h1]
    intro h
    have := ExactFloat.finite.inj h
    norm_num at this
  · rw [h2]
    intro h
    have := ExactFloat.finite.inj h
    norm_num at this

/-- C17, amended.  For every record with `Sentences = 0`, `AverageWordsPerSentence`
returns `float64(CountTotalWords)`, the binary64 number nearest to `CountTotalWords`: a
number, neither NaN nor an infinity, obtained without any division, within `2^-53` of
`CountTotalWords` in relative terms and equal to it when its magnitude is at most `2^53`.
For `Sentences ≠ 0` it returns the binary64 quotient of `float64(CountTotalWords)` by
`float64(Sentences)`, a number, neither NaN nor an infinity; when both magnitudes are at
most `2^53` this is `CountTotalWords / Sentences` rounded to binary64, within `2^-53` of
it in relative terms.  The counts are in the range of Go's `int`. -/
theorem averageWordsPerSentence_rounded (r : Results)
    (hW : |r.CountTotalWords| ≤ 2 ^ 63) (hS : |r.Sentences| ≤ 2 ^ 63) :
    (r.Sentences = 0 →
        r.AverageWordsPerSentence binary64 = round64 (r.CountTotalWords : ℚ) ∧
        (∃ v : ℚ, r.AverageWordsPerSentence binary64 = .finite v ∧
          |v - (r.CountTotalWords : ℚ)| ≤ |(r.CountTotalWords : ℚ)| / 2 ^ 53) ∧
        (|r.CountTotalWords| ≤ 2 ^ 53 →
          r.AverageWordsPerSentence binary64 = .finite (r.CountTotalWords : ℚ))) ∧
      (r.Sentences ≠ 0 →
        r.AverageWordsPerSentence binary64 =
          div64 (round64 (r.CountTotalWords : ℚ)) (round64 (r.Sentences : ℚ)) ∧
        (∃ v : ℚ, r.AverageWordsPerSentence binary64 = .finite v) ∧
        (|r.CountTotalWords| ≤ 2 ^ 53 → |r.Sentences| ≤ 2 ^ 53 →
          r.AverageWordsPerSentence binary64 =
              round64 ((r.CountTotalWords : ℚ) / (r.Sentences : ℚ)) ∧
            ∃ v : ℚ, r.AverageWordsPerSentence binary64 = .finite v ∧
              |v - (r.CountTotalWords : ℚ) / (r.Sentences : ℚ)| ≤
                |(r.CountTotalWords : ℚ) / (r.Sentences : ℚ)| / 2 ^ 53)) := by
  -- the two conversions
  have hconv : ∀ i : ℤ, |i| ≤ 2 ^ 63 →
      ∃ v : ℚ, round64 (i : ℚ) = .finite v ∧ (v = 0 ∨ (1 ≤ |v| ∧ |v| ≤ (2 : ℚ) ^ (64 : ℤ))) ∧
        (i ≠ 0 → 1 ≤ |v|) ∧ |v - (i : ℚ)| ≤ |(i : ℚ)| / 2 ^ 53 := by
    intro i hi
    by_cases h0 : i = 0
    · subst h0
      refine ⟨0, by simpa using round64_zero, Or.inl rfl, fun h => absurd rfl h, by simp⟩
    · obtain ⟨v, hv, h1, h2, h3⟩ := round64_int64 i h0 hi
      exact ⟨v, hv, Or.inr ⟨h1, h2⟩, fun _ => h1, h3⟩
  constructor
  · intro hs
    have e : r.AverageWordsPerSentence binary64 = round64 (r.CountTotalWords : ℚ) := by
      simp [Results.AverageWordsPerSentence, hs, binary64]
    refine ⟨e, ?_, ?_⟩
    · obtain ⟨v, hv, -, -, herr⟩ := hconv r.CountTotalWords hW
      exact ⟨v, e.trans hv, herr⟩
    · intro h53
      rw [e, round64_intCast_of_le _ h53]
  · intro hs
    have e : r.AverageWordsPerSentence binary64 =
        div64 (round64 (r.CountTotalWords : ℚ)) (round64 (r.Sentences : ℚ)) := by
      simp [Results.AverageWordsPerSentence, hs, binary64]
    refine ⟨e, ?_, ?_⟩
    · obtain ⟨x, hx, hxr, -, -⟩ := hconv r.CountTotalWords hW
      obtain ⟨y, hy, hyr, hy1, -⟩ := hconv r.Sentences hS
      have hy1' := hy1 hs
      have hy2 : |y| ≤ (2 : ℚ) ^ (64 : ℤ) := by
        rcases hyr with h | h
        · rw [h] at hy1'
          norm_num at hy1'
        · exact h.2
      obtain ⟨-, v, hv, -⟩ := div64_moderate x y hxr hy1' hy2
      exact ⟨v, by rw [e, hx, hy, hv]⟩
    · intro hW53 hS53
      have hx := round64_intCast_of_le _ hW53
      have hy := round64_intCast_of_le _ hS53
      have hsq : (r.Sentences : ℚ) ≠ 0 := by exact_mod_cast hs
      have hy1 : (1 : ℚ) ≤ |(r.Sentences : ℚ)| := by
        have : (1 : ℤ) ≤ |r.Sentences| := Int.one_le_abs hs
        exact_mod_cast this
      have hbound : ∀ i : ℤ, |i| ≤ 2 ^ 53 → |(i : ℚ)| ≤ (2 : ℚ) ^ (64 : ℤ) := by
        intro i hi
        have h1 : ((|i| : ℤ) : ℚ) ≤ ((2 ^ 53 : ℤ) : ℚ) := by exact_mod_cast hi
        have h2 : ((2 ^ 53 : ℤ) : ℚ) ≤ (2 : ℚ) ^ (64 : ℤ) := by norm_num
        have h3 : ((|i| : ℤ) : ℚ) = |(i : ℚ)| := by simp
        rw [← h3]
        exact le_trans h1 h2
      have hxr : (r.CountTotalWords : ℚ) = 0 ∨
          (1 ≤ |(r.CountTotalWords : ℚ)| ∧ |(r.CountTotalWords : ℚ)| ≤ (2 : ℚ) ^ (64 : ℤ)) := by
        by_cases h0 : r.CountTotalWords = 0
        · exact Or.inl (by exact_mod_cast h0)
        · refine Or.inr ⟨?_, hbound _ hW53⟩
          have : (1 : ℤ) ≤ |r.CountTotalWords| := Int.one_le_abs h0
          exact_mod_cast this
      obtain ⟨hd, v, hv, herr⟩ :=
        div64_moderate (r.CountTotalWords : ℚ) (r.Sentences : ℚ) hxr hy1 (hbound _ hS53)
      rw [e, hx, hy]
      exact ⟨hd, v, hv, herr⟩

/-- C17, amended, at a record with two words and no sentence, and at one with seven
words in two sentences. -/
theorem averageWordsPerSentence_rounded_witness :
    |({ emptyResults with CountTotalWords := 2 } : Results).CountTotalWords| ≤ 2 ^ 63 ∧
      |({ emptyResults with CountTotalWords := 2 } : Results).Sentences| ≤ 2 ^ 63 ∧
      ({ emptyResults with CountTotalWords := 2 } : Results).AverageWordsPerSentence binary64 =
        .finite (({ emptyResults with CountTotalWords := 2 } : Results).CountTotalWords : ℚ) ∧
      ({ emptyResults with CountTotalWords := 7, Sentences := 2 } :
        Results).AverageWordsPerSentence binary64 =
          round64
            ((({ emptyResults with CountTotalWords := 7, Sentences := 2 } :
                Results).CountTotalWords : ℚ) /
              (({ emptyResults with CountTotalWords := 7, Sentences := 2 } :
                Results).Sentences : ℚ)) :=
  ⟨by decide, by decide,
    ((averageWordsPerSentence_rounded { emptyResults with CountTotalWords := 2 } (by decide)
      (by decide)).1 rfl).2.2 (by decide),
    (((averageWordsPerSentence_rounded { emptyResults with CountTotalWords := 7, Sentences := 2 }
      (by decide) (by decide)).2 (by decide)).2.2 (by decide) (by decide)).1⟩

/-- C18. If the rune stream fails after delivering the runes `p`, `Analyse` returns that
failure together with the record of a successful pass over exactly `p`; a word still in
the buffer at the failure is ingested as a final word; when the stream does not fail the
error is nil. -/
theorem stream_failure_keeps_result (env : Env) (p : List Char) (e : String) :
    Analyse env ⟨p, some e⟩ = ((Analyse env ⟨p, none⟩).1, some e) ∧
      (Analyse env ⟨p, none⟩).2 = none ∧
      wordEvents env p =
        (p.foldl (scanStep env) Scan.init).calls ++
          (if (p.foldl (scanStep env) Scan.init).word ≠ [] then
            [(p.foldl (scanStep env) Scan.init).word]
          else []) ∧
      (Analyse env ⟨p, some e⟩).1 =
        withCounters (aggregate env (wordEvents env p)) (Analyse env ⟨p, some e⟩).1 ∧
      (∀ alt cmu dale,
        wordEvents (asciiEnv alt cmu dale) "ham sa".toList = ["ham".toList, "sa".toList] ∧
        (Analyse (asciiEnv alt cmu dale) ⟨"ham sa".toList, some e⟩).2 = some e ∧
        (Analyse (asciiEnv alt cmu dale) ⟨"ham sa".toList, some e⟩).1.CountTotalWords = 2) := by
  refine ⟨rfl, rfl, ?_, scanAll_res env p, ?_⟩
  · unfold wordEvents scanAll finish
    split
    · rfl
    · exact (List.append_nil _).symm
  · intro alt cmu dale
    have hev : wordEvents (asciiEnv alt cmu dale) "ham sa".toList =
        ["ham".toList, "sa".toList] := rfl
    refine ⟨hev, rfl, ?_⟩
    obtain ⟨g1, -, -, -, -, -⟩ := scanAll_fields (asciiEnv alt cmu dale) "ham sa".toList
    show (scanAll (asciiEnv alt cmu dale) "ham sa".toList).res.CountTotalWords = 2
    rw [g1, aggregate_totalWords, hev]
    rfl

/-- C19. When `analyseWord` is called with a spelling already in `WordList`, the entry of
that spelling keeps its `Word` and `Syllables` and has one more in `Occurrences`, every
other entry and the list of keys are unchanged, and so are `CountUniqueWords` and
`UniqueWordCountPerSyllableCount`; on any word and record `analyseWord` leaves
`Letters`, `Spaces`, `Punctuation` and `Sentences` as they are. -/
theorem repeated_word_frame (env : Env) (word : List Char) (res : Results) (e : Word)
    (h : res.WordList.get? word = some e) :
    (analyseWord env word res).WordList.get? word =
        some { Word := e.Word, Occurrences := e.Occurrences + 1, Syllables := e.Syllables } ∧
      (∀ j : List Char, j ≠ word →
        (analyseWord env word res).WordList.get? j = res.WordList.get? j) ∧
      (analyseWord env word res).WordList.keys = res.WordList.keys ∧
      (analyseWord env word res).CountUniqueWords = res.CountUniqueWords ∧
      (analyseWord env word res).UniqueWordCountPerSyllableCount =
        res.UniqueWordCountPerSyllableCount ∧
      (∀ (w : List Char) (r : Results),
        (analyseWord env w r).Letters = r.Letters ∧ (analyseWord env w r).Spaces = r.Spaces ∧
          (analyseWord env w r).Punctuation = r.Punctuation ∧
          (analyseWord env w r).Sentences = r.Sentences) := by
  refine ⟨?_, ?_, ?_, ?_, ?_, fun w r => analyseWord_counters env w r⟩
  · rw [analyseWord_WordList, h]
    simp only [GoMap.get?_set_self]
  · intro j hj
    rw [analyseWord_WordList, h]
    exact GoMap.get?_set_of_ne _ _ (fun hw => hj hw.symm)
  · rw [analyseWord_WordList, h]
    simp only [GoMap.keys_set, h, Option.isSome_some, if_true]
  · rw [analyseWord_CountUniqueWords, h]
  · rw [analyseWord_Unique, h]

/-- C19, at the second "ham" of a text. -/
theorem repeated_word_frame_witness :
    (analyseWord (asciiEnv (fun _ => 1) (fun _ => none) (fun _ => false)) "ham".toList
        emptyResults).WordList.get? "ham".toList =
        some { Word := "ham".toList, Occurrences := 1,
               Syllables := analyseSyllables
                 (asciiEnv (fun _ => 1) (fun _ => none) (fun _ => false)) "ham".toList } ∧
      (analyseWord (asciiEnv (fun _ => 1) (fun _ => none) (fun _ => false)) "ham".toList
        (analyseWord (asciiEnv (fun _ => 1) (fun _ => none) (fun _ => false)) "ham".toList
          emptyResults)).WordList.get? "ham".toList =
        some { Word := "ham".toList, Occurrences := 1 + 1,
               Syllables := analyseSyllables
                 (asciiEnv (fun _ => 1) (fun _ => none) (fun _ => false)) "ham".toList } ∧
      (analyseWord (asciiEnv (fun _ => 1) (fun _ => none) (fun _ => false)) "ham".toList
        (analyseWord (asciiEnv (fun _ => 1) (fun _ => none) (fun _ => false)) "ham".toList
          emptyResults)).CountUniqueWords =
        (analyseWord (asciiEnv (fun _ => 1) (fun _ => none) (fun _ => false)) "ham".toList
          emptyResults).CountUniqueWords :=
  ⟨by decide,
    (repeated_word_frame (asciiEnv (fun _ => 1) (fun _ => none) (fun _ => false)) "ham".toList
      (analyseWord (asciiEnv (fun _ => 1) (fun _ => none) (fun _ => false)) "ham".toList
        emptyResults)
      { Word := "ham".toList, Occurrences := 1,
          Syllables := analyseSyllables
            (asciiEnv (fun _ => 1) (fun _ => none) (fun _ => false)) "ham".toList }
      (by decide)).1,
    (repeated_word_frame (asciiEnv (fun _ => 1) (fun _ => none) (fun _ => false)) "ham".toList
      (analyseWord (asciiEnv (fun _ => 1) (fun _ => none) (fun _ => false)) "ham".toList
        emptyResults)
      { Word := "ham".toList, Occurrences := 1,
          Syllables := analyseSyllables
            (asciiEnv (fun _ => 1) (fun _ => none) (fun _ => false)) "ham".toList }
      (by decide)).2.2.2.1⟩

/-- C20. Stripping is cumulative and in list order: `PrefixSuffixes` has 7 patterns, the
loop tests each once, in order, against the word as the earlier strips left it, and the
split and the subtract and add patterns work on the stripped word.  For "fearlessly",
`ly$` then `less$` strip, leaving "fear" with a count of 2, and `SyllableCount` is 3; for
"lyless" only `less$` strips, leaving "ly" with a count of 1, and `SyllableCount` is 2:
`ly$` matches the remainder but was tried before `less$`. -/
theorem stripping_cumulative_in_order (alt : List Char → Int) (cmu : List Char → Option Int)
    (dale : List Char → Bool) :
    PrefixSuffixes.length = 7 ∧
      (∀ (regex : Re) (rest : List Re) (word : List Char) (k : Int),
        stripPrefixSuffixes (regex :: rest) word k =
          if regex.MatchString word then
            stripPrefixSuffixes rest (regex.ReplaceAllEmpty word) (k + 1)
          else stripPrefixSuffixes rest word k) ∧
      (∀ (word : List Char) (k : Int), stripPrefixSuffixes [] word k = (word, k)) ∧
      (∀ (env : Env) (word : List Char), ProblemWords.get? (word.map env.toLower) = none →
        SyllableCount env word =
          addSyllables (stripPrefixSuffixes PrefixSuffixes (word.map env.toLower) 0).1
            AddSyllables
            (subSyllables (stripPrefixSuffixes PrefixSuffixes (word.map env.toLower) 0).1
              SubSyllables
              (countWordParts
                  (ConsonantsRegexp.Split
                    (stripPrefixSuffixes PrefixSuffixes (word.map env.toLower) 0).1) 0 +
                (stripPrefixSuffixes PrefixSuffixes (word.map env.toLower) 0).2))) ∧
      (PrefixSuffixes.map fun regex => regex.MatchString "fearlessly".toList) =
        [false, false, true, false, false, false, false] ∧
      (cat [str "ly", .eol]).ReplaceAllEmpty "fearlessly".toList = "fearless".toList ∧
      (cat [str "less", .eol]).MatchString "fearless".toList = true ∧
      (cat [str "less", .eol]).ReplaceAllEmpty "fearless".toList = "fear".toList ∧
      stripPrefixSuffixes PrefixSuffixes "fearlessly".toList 0 = ("fear".toList, 2) ∧
      SyllableCount (asciiEnv alt cmu dale) "fearlessly".toList = 3 ∧
      (PrefixSuffixes.map fun regex => regex.MatchString "lyless".toList) =
        [false, false, false, true, false, false, false] ∧
      stripPrefixSuffixes PrefixSuffixes "lyless".toList 0 = ("ly".toList, 1) ∧
      (cat [str "ly", .eol]).MatchString "ly".toList = true ∧
      SyllableCount (asciiEnv alt cmu dale) "lyless".toList = 2 := by
  have h1 : SyllableCount (asciiEnv alt cmu dale) "fearlessly".toList = 3 :=
    (SyllableCount_asciiEnv alt cmu dale _).trans (by decide)
  have h2 : SyllableCount (asciiEnv alt cmu dale) "lyless".toList = 2 :=
    (SyllableCount_asciiEnv alt cmu dale _).trans (by decide)
  refine ⟨rfl, fun _ _ _ _ => rfl, fun _ _ => rfl, ?_, by decide, by decide, by decide,
    by decide, by decide, h1, by decide, by decide, by decide, h2⟩
  intro env word h
  rw [SyllableCount_eq, h]
  rfl

/-- C21. Every counted letter belongs to exactly one word: for every input, after
`Analyse`, `Letters` is the sum of the lengths in runes of the word events, which is the
sum of `Occurrences * length` over the entries of `WordList`; every key of `WordList` is
non-empty and consists of Letter runes only. -/
theorem letters_eq_event_lengths (env : Env) (r : Reader) :
    (Analyse env r).1.Letters =
        ((wordEvents env r.runes).map fun w => (w.length : Int)).sum ∧
      (Analyse env r).1.Letters = occurrenceLetters (Analyse env r).1.WordList ∧
      (∀ w ∈ (Analyse env r).1.WordList.keys, w ≠ [] ∧ ∀ c ∈ w, env.isLetter c = true) ∧
      (∀ w e, (Analyse env r).1.WordList.get? w = some e → e.Word = w) ∧
      (∀ alt cmu dale,
        (Analyse (asciiEnv alt cmu dale) ⟨"ham, ham a1b".toList, none⟩).1.Letters = 8 ∧
        wordEvents (asciiEnv alt cmu dale) "ham, ham a1b".toList =
          ["ham".toList, "ham".toList, "ab".toList]) := by
  obtain ⟨-, -, -, -, -, h6⟩ := scanAll_fields env r.runes
  have hl := scanAll_letters env r.runes
  refine ⟨hl, ?_, ?_, ?_, ?_⟩
  · show (scanAll env r.runes).res.Letters = occurrenceLetters (scanAll env r.runes).res.WordList
    rw [h6, aggregate_occurrenceLetters]
    exact hl
  · intro w hw
    change w ∈ (scanAll env r.runes).res.WordList.keys at hw
    rw [h6, aggregate_keys_iff] at hw
    exact wordEvents_lettered env r.runes w hw
  · intro w e he
    change (scanAll env r.runes).res.WordList.get? w = some e at he
    rw [h6, aggregate_wordList_get?] at he
    split at he
    · cases he
      rfl
    · cases he
  · intro alt cmu dale
    have hev : wordEvents (asciiEnv alt cmu dale) "ham, ham a1b".toList =
        ["ham".toList, "ham".toList, "ab".toList] := rfl
    refine ⟨?_, hev⟩
    rw [Analyse_letters, hev]
    decide

/-- C22. The two zero-sentence conventions coincide in value.  For a `float64` in which
dividing by 1 changes nothing, the conversion of an `int` compares equal to 0 exactly when
the `int` is 0, and the constant 1 is the conversion of 1, as in IEEE 754:
`AverageWordsPerSentence` is `CountTotalWords / S'` with `S' = 1` if `Sentences = 0` and
`S' = Sentences` otherwise, for every record, those with `Sentences ≥ 0` among them, and
that is the term `float64(CountTotalWords) / sentences` that `AutomatedReadabilityIndex`
and `DaleChallReadabilityScore` compute after their substitution. -/
theorem zero_sentence_conventions_coincide {F : Type} (fl : FloatArith F) (r : Results)
    (hdiv : ∀ x : F, fl.div x (fl.lit 1) = x)
    (hzero : ∀ i : Int, fl.beq (fl.ofInt i) (fl.lit 0) = true ↔ i = 0)
    (hone : fl.lit 1 = fl.ofInt 1) :
    r.AverageWordsPerSentence fl.toFloatOps =
        fl.div (fl.ofInt r.CountTotalWords) (fl.ofInt r.sentencesSpec) ∧
      r.sentencesOrOne fl = fl.ofInt r.sentencesSpec ∧
      r.AverageWordsPerSentence fl.toFloatOps = r.wordsPerSentenceTerm fl ∧
      r.AutomatedReadabilityIndex fl =
        fl.sub
          (fl.add
            (fl.mul (fl.lit (471 / 100))
              (fl.div (fl.ofInt r.Letters) (fl.ofInt r.CountTotalWords)))
            (fl.mul (fl.lit (1 / 2)) (r.AverageWordsPerSentence fl.toFloatOps)))
          (fl.lit (2143 / 100)) ∧
      r.DaleChallReadabilityScore fl =
        (if fl.lt (fl.lit 5)
            (fl.mul (fl.div (fl.ofInt r.DifficultWords) (fl.ofInt r.CountTotalWords))
              (fl.lit 100)) then
          fl.add
            (fl.add
              (fl.mul (fl.lit (1579 / 10000))
                (fl.mul (fl.div (fl.ofInt r.DifficultWords) (fl.ofInt r.CountTotalWords))
                  (fl.lit 100)))
              (fl.mul (fl.lit (496 / 10000)) (r.AverageWordsPerSentence fl.toFloatOps)))
            (fl.lit (36365 / 10000))
        else
          fl.add
            (fl.mul (fl.lit (1579 / 10000))
              (fl.mul (fl.div (fl.ofInt r.DifficultWords) (fl.ofInt r.CountTotalWords))
                (fl.lit 100)))
            (fl.mul (fl.lit (496 / 10000)) (r.AverageWordsPerSentence fl.toFloatOps))) := by
  have hsub : r.sentencesOrOne fl = fl.ofInt r.sentencesSpec := by
    unfold Results.sentencesOrOne Results.sentencesSpec
    by_cases hs : r.Sentences = 0
    · simp only [hs, (hzero 0).2 rfl, if_true]
      exact hone
    · have hb : ¬fl.beq (fl.ofInt r.Sentences) (fl.lit 0) = true :=
        fun hb => hs ((hzero _).1 hb)
      show (if fl.beq (fl.ofInt r.Sentences) (fl.lit 0) = true then fl.lit 1
          else fl.ofInt r.Sentences) = fl.ofInt (if r.Sentences = 0 then 1 else r.Sentences)
      rw [if_neg hb, if_neg hs]
  have hterm : r.wordsPerSentenceTerm fl =
      fl.div (fl.ofInt r.CountTotalWords) (fl.ofInt r.sentencesSpec) := by
    unfold Results.wordsPerSentenceTerm
    rw [hsub]
  have havg : r.AverageWordsPerSentence fl.toFloatOps =
      fl.div (fl.ofInt r.CountTotalWords) (fl.ofInt r.sentencesSpec) := by
    unfold Results.AverageWordsPerSentence Results.sentencesSpec
    by_cases hs : r.Sentences = 0
    · simp only [hs, if_true]
      rw [← hone, hdiv]
    · simp only [hs, if_false]
  refine ⟨havg, hsub, havg.trans hterm.symm, ?_, ?_⟩
  · unfold Results.AutomatedReadabilityIndex
    rw [havg, hterm]
  · unfold Results.DaleChallReadabilityScore
    simp only []
    rw [havg, hterm]

/-- C22, at a record with two words and no sentence, without rounding. -/
theorem zero_sentence_conventions_coincide_witness :
    (∀ x : ExactFloat, exactArith.div x (exactArith.lit 1) = x) ∧
      (∀ i : Int, exactArith.beq (exactArith.ofInt i) (exactArith.lit 0) = true ↔ i = 0) ∧
      exactArith.lit 1 = exactArith.ofInt 1 ∧
      ({ emptyResults with CountTotalWords := 2 } : Results).AverageWordsPerSentence
          exactArith.toFloatOps =
        ({ emptyResults with CountTotalWords := 2 } : Results).wordsPerSentenceTerm
          exactArith :=
  ⟨exactArith_div_one, exactArith_beq_zero, exactArith_lit_one,
    (zero_sentence_conventions_coincide exactArith { emptyResults with CountTotalWords := 2 }
      exactArith_div_one exactArith_beq_zero exactArith_lit_one).2.2.1⟩

end Textstats
